
import Mathlib

/-!
Verification of the cron-scheduling core of `ddeutil-pipe`
(`src/ddeutil/workflow/vendors/scheduler.py`).

The Python classes `Unit`, `Options`, `CronPart`, `CronJob` and `CronRunner`
are shallowly embedded below.  Pure functions become Lean functions over
`List Char` / `List Int`; Python exceptions become an explicit error type
(`PyErr`) through `Except`; the unbounded `while` loops of the date search
are driven by explicit fuel, with separate theorems showing the fuel is
never exhausted on valid inputs.

The date helpers `next_date` / `replace_date` come from the external
`ddeutil.core.dtutils` package whose source is not part of this repository;
they are modelled from the specification (see the doc comments on
`stepDate`).  Everything else is translated directly from the source file.
-/

namespace Sched

/-! ## Small Python-semantics utilities -/

/-- Lexicographic comparison of Python lists of ints (`list.__lt__`). -/
def pyListLt : List Int → List Int → Bool
  | [], [] => false
  | [], _ :: _ => true
  | _ :: _, [] => false
  | a :: l, b :: m => if a < b then true else if b < a then false else pyListLt l m

/-- Insert an integer into a strictly-sorted list, keeping it strictly sorted
(duplicates are dropped). -/
def insertUnique (x : Int) : List Int → List Int
  | [] => [x]
  | a :: l => if x = a then a :: l else if x < a then x :: a :: l else a :: insertUnique x l

/-- Embedding of Python `sorted(dict.fromkeys(values))`: the strictly
ascending enumeration of the set of elements of the input list. -/
def sortedUnique (l : List Int) : List Int := l.foldr insertUnique []

/-- The inclusive integer range `[a, a+1, ..., b]` (empty when `b < a`),
mirroring Python `list(range(a, b + 1))`. -/
def intRange (a b : Int) : List Int :=
  (List.range (b + 1 - a).toNat).map (fun (i : Nat) => a + (i : Int))

/-! ## Decimal printing and parsing (embedding of `str(int)` and `int(str)`) -/

/-- Decimal digit characters of `n`, most significant first; fuel-driven so
that the kernel can evaluate it. -/
def natToCharsAux : Nat → Nat → List Char
  | 0, _ => []
  | fuel + 1, n =>
    if n < 10 then [Nat.digitChar n]
    else natToCharsAux fuel (n / 10) ++ [Nat.digitChar (n % 10)]

/-- Embedding of Python `str(n)` for a natural number. -/
def natToChars (n : Nat) : List Char := natToCharsAux (n + 1) n

/-- Embedding of Python `str(i)` for an int (`f"{value}"` in the source). -/
def intToChars (i : Int) : List Char :=
  if i < 0 then '-' :: natToChars i.natAbs else natToChars i.toNat

def charsToNatAcc : Nat → List Char → Nat
  | acc, [] => acc
  | acc, c :: l => charsToNatAcc (10 * acc + (c.toNat - 48)) l

/-- Parse a nonempty all-digit character list as a natural number. -/
def charsToNat? (l : List Char) : Option Nat :=
  if l ≠ [] ∧ l.all Char.isDigit then some (charsToNatAcc 0 l) else none

/-- Embedding of Python `int(s)`: an optional sign followed by decimal
digits.  (Python also tolerates surrounding whitespace and underscore
digit separators; neither can occur in the tokens this program feeds to
`int`, so they are not modelled.) -/
def pyIntOfChars (l : List Char) : Option Int :=
  if l = [] then none
  else if l.head? = some '-' then (charsToNat? l.tail).map (fun n => -(n : Int))
  else if l.head? = some '+' then (charsToNat? l.tail).map (fun n => (n : Int))
  else (charsToNat? l).map (fun n => (n : Int))

/-! ## Splitting and joining character lists -/

/-- Split a character list at every separator character satisfying `p`,
keeping empty groups — the semantics of Python `str.split(sep)` for a
single-character `sep` (with `p` matching exactly `sep`). -/
def splitOnPred (p : Char → Bool) : List Char → List (List Char)
  | [] => [[]]
  | c :: rest =>
    match splitOnPred p rest with
    | [] => [[]]
    | g :: gs => if p c then [] :: g :: gs else (c :: g) :: gs

/-- Embedding of Python `value.split(sep)` for a one-character separator. -/
def splitOnChar (sep : Char) (l : List Char) : List (List Char) :=
  splitOnPred (fun c => c = sep) l

/-- Embedding of Python `sep.join(parts)` for list-of-char strings. -/
def joinSep (sep : List Char) : List (List Char) → List Char
  | [] => []
  | [t] => t
  | t :: ts => t ++ sep ++ joinSep sep ts

/-- Python whitespace characters recognised by `str.split()`. -/
def isPyWs (c : Char) : Bool :=
  c = ' ' ∨ c = '\t' ∨ c = '\n' ∨ c = '\r' ∨ c = '\x0b' ∨ c = '\x0c'

/-- Embedding of Python `value.strip().split()`: split on whitespace runs,
dropping empty fields.  (`.strip()` is absorbed: with no separator
argument, `.split()` already ignores leading and trailing whitespace, so
stripping first does not change the result.) -/
def pySplitWs (l : List Char) : List (List Char) :=
  (splitOnPred isPyWs l).filter (fun g => g ≠ [])

/-! ## Substring search and replacement -/

/-- Does `pat` occur as a contiguous substring of `l`?  Embedding of Python
`pat in value`. -/
def containsSub (pat l : List Char) : Bool :=
  (List.range (l.length + 1)).any (fun i => pat.isPrefixOf (l.drop i))

/-- One left-to-right pass of Python `value.replace(pat, rep)`, fuel-driven.
Only called with nonempty `pat`. -/
def replaceSubAux (pat rep : List Char) : Nat → List Char → List Char
  | 0, l => l
  | _ + 1, [] => []
  | fuel + 1, c :: l =>
    if pat.isPrefixOf (c :: l) then rep ++ replaceSubAux pat rep fuel ((c :: l).drop pat.length)
    else c :: replaceSubAux pat rep fuel l

/-- Embedding of Python `value.replace(pat, rep)`. -/
def replaceSub (pat rep l : List Char) : List Char := replaceSubAux pat rep l.length l

/-! ## Data model: `Unit`, `Options`, errors -/

/-- Embedding of the frozen dataclass `Unit` (per-field metadata).  The
source also stores `range: partial`; in every instance it equals
`partial(range, min, max + 1)` and is embedded by `unitRange`. -/
structure CronUnit where
  name : String
  min : Nat
  max : Nat
  alt : List String
deriving DecidableEq

/-- The list produced by `list(self.unit.range())`. -/
def unitRange (u : CronUnit) : List Int := intRange (u.min : Int) (u.max : Int)

def minuteUnit : CronUnit := ⟨"minute", 0, 59, []⟩

def hourUnit : CronUnit := ⟨"hour", 0, 23, []⟩

def dayUnit : CronUnit := ⟨"day", 1, 31, []⟩

def monthUnit : CronUnit :=
  ⟨"month", 1, 12,
    ["JAN", "FEB", "MAR", "APR", "MAY", "JUN", "JUL", "AUG", "SEP", "OCT", "NOV", "DEC"]⟩

def weekdayUnit : CronUnit :=
  ⟨"weekday", 0, 6, ["SUN", "MON", "TUE", "WED", "THU", "FRI", "SAT"]⟩

/-- The extra unit of `CRON_UNITS_AWS`. -/
def yearUnit : CronUnit := ⟨"year", 1990, 2100, []⟩

/-- `CRON_UNITS`, the five standard units in field order. -/
def cronUnits : List CronUnit := [minuteUnit, hourUnit, dayUnit, monthUnit, weekdayUnit]

/-- Embedding of the `Options` dataclass. -/
structure Options where
  output_weekday_names : Bool := false
  output_month_names : Bool := false
  output_hashes : Bool := false
deriving DecidableEq

def defaultOptions : Options := {}

/-- Python exception kinds raised by this module (messages elided).
`fuelExhausted` is not a Python exception: it marks exhaustion of the
explicit fuel driving the embedded `while` loops and is proved unreachable
on valid inputs. -/
inductive PyErr where
  | valueError
  | typeError
  | attributeError
  | indexError
  | recursionError
  | fuelExhausted
deriving DecidableEq

/-! ## `CronPart`: parsing -/

/-- Embedding of `CronPart` (a parsed field).  `__slots__ = (unit, options,
values)`. -/
structure CronPart where
  unit : CronUnit
  options : Options
  values : List Int
deriving DecidableEq

/-- `CronPart.replace_weekday`: replace 7 with 0 on the weekday field. -/
def replaceWeekday (u : CronUnit) (values : List Int) : List Int :=
  if u.name = "weekday" then values.map (fun v => if v = 7 then 0 else v) else values

/-- `CronPart.out_of_range`: raise if the first element is below the unit
minimum or the last is above the unit maximum. -/
def outOfRange (u : CronUnit) (values : List Int) : Except PyErr (List Int) :=
  match values with
  | [] => .ok []
  | first :: rest =>
    if first < (u.min : Int) then .error .valueError
    else if (u.max : Int) < (first :: rest).getLast (List.cons_ne_nil first rest) then
      .error .valueError
    else .ok (first :: rest)

/-- `list(map(int, value.split("-")))` together with the surrounding
`try`/`except` of `_parse_range`. -/
def mapIntList : List (List Char) → Except PyErr (List Int)
  | [] => .ok []
  | t :: rest =>
    match pyIntOfChars t with
    | none => .error .valueError
    | some v => (mapIntList rest).map (fun vs => v :: vs)

/-- `CronPart._parse_range`. -/
def parseRange (u : CronUnit) (value : List Char) : Except PyErr (List Int) :=
  if value = ['*'] then .ok (unitRange u)
  else if 1 < value.count '-' then .error .valueError
  else
    match mapIntList (splitOnChar '-' value) with
    | .error e => .error e
    | .ok nums =>
      match nums with
      | [mn, mx] =>
        if mx < mn then .error .valueError
        else .ok (replaceWeekday u (intRange mn mx))
      | _ => .ok (replaceWeekday u nums)

/-- `CronPart._interval`: keep only values congruent to the range minimum
modulo the step.  (`from_str` validates the step string first, so the
`none`/empty branches marked unreachable never fire from there.) -/
def interval (u : CronUnit) (values : List Int) (step : Option (List Char)) :
    Except PyErr (List Int) :=
  match step with
  | none => .ok values
  | some s =>
    match pyIntOfChars s with
    | none => .error .valueError
    | some stp =>
      if stp < 1 then .error .valueError
      else
        match values with
        | [] => .error .indexError
        | mn :: rest =>
          .ok ((mn :: rest).filter (fun v => v % stp == mn % stp || v == mn))

/-- Loop body of `CronPart.replace_alternative`, threading the enumerate
index. -/
def replaceAlternativeAux (umin : Nat) : Nat → List String → List Char → List Char
  | _, [], l => l
  | i, alt :: alts, l =>
    replaceAlternativeAux umin (i + 1) alts
      (if containsSub alt.data l then replaceSub alt.data (natToChars (umin + i)) l else l)

/-- `CronPart.replace_alternative`. -/
def replaceAlternative (u : CronUnit) (l : List Char) : List Char :=
  replaceAlternativeAux u.min 0 u.alt l

/-- Python `str.upper`. -/
def upperChars (l : List Char) : List Char := l.map Char.toUpper

/-- `must_split(_value, "/", maxsplit=1)` from `ddeutil.core`: split and pad
with `None`.  Callers have already rejected tokens with more than one `/`,
so `maxsplit=1` and a plain split agree. -/
def mustSplit (l : List Char) : List Char × Option (List Char) :=
  match splitOnChar '/' l with
  | [a] => (a, none)
  | a :: b :: _ => (a, some b)
  | [] => (l, none)

/-- `is_int` from `ddeutil.core`: the string parses as an int. -/
def isIntStr (l : List Char) : Bool := (pyIntOfChars l).isSome

/-- Body of the comma loop in `CronPart.from_str` for one token. -/
def fromStrToken (u : CronUnit) (tok : List Char) : Except PyErr (List Int) :=
  if tok = ['?'] then .ok []
  else if 1 < tok.count '/' then .error .valueError
  else
    let rs := mustSplit tok
    match parseRange u rs.1 with
    | .error e => .error e
    | .ok ranged0 =>
      match outOfRange u ranged0 with
      | .error e => .error e
      | .ok ranged =>
        match rs.2 with
        | some st =>
          if st = [] then .error .valueError
          else if ¬ isIntStr st then .error .valueError
          else interval u ranged (some st)
        | none => interval u ranged none

/-- The comma loop of `CronPart.from_str`, flattening the per-token lists. -/
def fromStrTokens (u : CronUnit) : List (List Char) → Except PyErr (List Int)
  | [] => .ok []
  | tok :: rest =>
    match fromStrToken u tok with
    | .error e => .error e
    | .ok vs =>
      match fromStrTokens u rest with
      | .error e => .error e
      | .ok tail => .ok (vs ++ tail)

/-- `CronPart.from_str`. -/
def fromStr (u : CronUnit) (value : List Char) : Except PyErr (List Int) :=
  fromStrTokens u (splitOnChar ',' (replaceAlternative u (upperChars value)))

/-- Input accepted by `CronPart.__init__` (`str` or `list[int]`; any other
type raises `TypeError`, not modelled). -/
inductive PartInput where
  | str (s : String)
  | ints (l : List Int)

/-- The per-input-type stage of `CronPart.__init__` (a `"?"` string maps to
the empty list, other strings go through `from_str`, integer lists through
`replace_weekday`). -/
def cronPartRaw (u : CronUnit) (values : PartInput) : Except PyErr (List Int) :=
  match values with
  | .str s => if s = "?" then .ok [] else fromStr u s.data
  | .ints l => .ok (replaceWeekday u l)

/-- `CronPart.__init__`: the raw stage, then
`self.out_of_range(sorted(dict.fromkeys(values)))`. -/
def cronPartInit (u : CronUnit) (values : PartInput) (options : Options) :
    Except PyErr CronPart :=
  match cronPartRaw u values with
  | .error e => .error e
  | .ok raw =>
    match outOfRange u (sortedUnique raw) with
    | .error e => .error e
    | .ok norm => .ok ⟨u, options, norm⟩

/-! ## `CronPart`: derived properties and serialization -/

/-- `CronPart.min` (`values[0]`; only ever used on nonempty values). -/
def partMin (p : CronPart) : Int := p.values.headD 0

/-- `CronPart.max` (`values[-1]`; only ever used on nonempty values). -/
def partMax (p : CronPart) : Int := p.values.getLastD 0

/-- `CronPart.step`: `values[1] - values[0]` when the list has more than two
elements and that difference exceeds 1, else `None`. -/
def stepOf (p : CronPart) : Option Int :=
  match p.values with
  | v0 :: v1 :: _ :: _ => if 1 < v1 - v0 then some (v1 - v0) else none
  | _ => none

/-- `CronPart.is_full`. -/
def isFull (p : CronPart) : Bool :=
  (p.values.length : Int) = (p.unit.max : Int) - (p.unit.min : Int) + 1

/-- All adjacent gaps equal `s` (the loop inside `is_interval`). -/
def gapsAllEq (s : Int) : List Int → Bool
  | a :: b :: rest => (b - a == s) && gapsAllEq s (b :: rest)
  | _ => true

/-- `CronPart.is_interval`. -/
def isInterval (p : CronPart) : Bool :=
  match stepOf p with
  | none => false
  | some s => gapsAllEq s p.values

/-- Python `round()` (round half to even) on a rational. -/
def pyRound (q : Rat) : Int :=
  let f := q.floor
  let r := q - (f : Rat)
  if r < 1 / 2 then f
  else if 1 / 2 < r then f + 1
  else if f % 2 = 0 then f else f + 1

/-- `CronPart.is_full_interval`. -/
def isFullInterval (p : CronPart) : Bool :=
  match stepOf p with
  | none => false
  | some s =>
    partMin p = (p.unit.min : Int) ∧ (p.unit.max : Int) < partMax p + s ∧
      (p.values.length : Int) =
        pyRound (((partMax p - partMin p : Int) : Rat) / (s : Rat)) + 1

/-- An element of the list returned by `CronPart.ranges`: either a scalar or
a two-element `[start, end]` run. -/
inductive RangeItem where
  | single (v : Int)
  | span (a b : Int)
deriving DecidableEq

/-- The scan inside `CronPart.ranges`, carrying `start_number`. -/
def rangesAux : Option Int → List Int → List RangeItem
  | _, [] => []
  | start?, v :: rest =>
    let nxt : Int := match rest with | [] => -1 | n :: _ => n
    if v ≠ nxt - 1 then
      (match start? with
       | none => RangeItem.single v
       | some s => RangeItem.span s v) :: rangesAux none rest
    else
      match start? with
      | none => rangesAux (some v) rest
      | some _ => rangesAux start? rest

/-- `CronPart.ranges`. -/
def pranges (p : CronPart) : List RangeItem := rangesAux none p.values

/-- `CronPart.filler`: symbolic name when the relevant option is set for
this field, the decimal numeral otherwise.  (The `alt` table lookup is
total here via `getD`; in range it never falls back.) -/
def filler (p : CronPart) (v : Int) : List Char :=
  if (p.options.output_weekday_names ∧ p.unit.name = "weekday")
      ∨ (p.options.output_month_names ∧ p.unit.name = "month") then
    (p.unit.alt.getD (v - (p.unit.min : Int)).toNat "").data
  else intToChars v

/-- `CronPart.__str__`. -/
def partStrChars (p : CronPart) : List Char :=
  let hsh : List Char := if p.options.output_hashes then ['H'] else ['*']
  if isFull p then hsh
  else if isInterval p then
    match stepOf p with
    | some s =>
      if isFullInterval p then hsh ++ '/' :: intToChars s
      else
        let base : List Char :=
          if p.options.output_hashes then
            'H' :: '(' :: (filler p (partMin p) ++ '-' :: filler p (partMax p)) ++ [')']
          else filler p (partMin p) ++ '-' :: filler p (partMax p)
        base ++ '/' :: intToChars s
    | none => hsh
  else
    let toks := (pranges p).map (fun r =>
      match r with
      | .single v => filler p v
      | .span a b => filler p a ++ '-' :: filler p b)
    if toks = [] then ['?'] else joinSep [','] toks

/-- Placeholder part used as the (never hit) default of list lookups. -/
def defaultPart : CronPart := ⟨minuteUnit, defaultOptions, []⟩

/-- `CronPart.__eq__`: compares only the `values` lists. -/
def cronPartEq (p q : CronPart) : Bool := p.values == q.values

/-- `CronPart.__lt__`: compares only the `values` lists, lexicographically. -/
def cronPartLt (p q : CronPart) : Bool := pyListLt p.values q.values

/-! ## `CronJob` -/

/-- Embedding of `CronJob` for the standard 5-field dialect: the
construction options plus the five parts in field order (minute, hour,
day, month, weekday).  `parts` always has length 5 when built by
`cronJobParse`. -/
structure CronJob where
  options : Options
  parts : List CronPart
deriving DecidableEq

/-- `CronJob.minute`. -/
def jobMinute (j : CronJob) : CronPart := j.parts.getD 0 defaultPart

/-- `CronJob.hour`. -/
def jobHour (j : CronJob) : CronPart := j.parts.getD 1 defaultPart

/-- `CronJob.day`. -/
def jobDay (j : CronJob) : CronPart := j.parts.getD 2 defaultPart

/-- `CronJob.month`. -/
def jobMonth (j : CronJob) : CronPart := j.parts.getD 3 defaultPart

/-- `CronJob.dow`. -/
def jobDow (j : CronJob) : CronPart := j.parts.getD 4 defaultPart

/-- The part-construction loop of `CronJob.__init__`
(`zip(value, self.cron_units)`; `zip` truncates, but the token count has
been validated to match). -/
def initParts (opts : Options) : List CronUnit → List (List Char) → Except PyErr (List CronPart)
  | [], _ => .ok []
  | _ :: _, [] => .ok []
  | u :: us, t :: ts =>
    match cronPartInit u (.str (String.mk t)) opts with
    | .error e => .error e
    | .ok p =>
      match initParts opts us ts with
      | .error e => .error e
      | .ok rest => .ok (p :: rest)

/-- `CronJob.__init__` for a string value.  The final day/day-of-week
validation in the source is the chained comparison
`if self.day == self.dow == []`, i.e. `(day == dow) and (dow == [])`:
whenever `day == dow` holds (equal `values` lists), evaluating `dow == []`
calls `CronPart.__eq__(dow, [])`, which reads `[].values` on the plain
list `[]` and raises `AttributeError` — the intended `ValueError` branch
is unreachable. -/
def cronJobParse (opts : Options) (value : String) : Except PyErr CronJob :=
  let toks := pySplitWs value.data
  if toks.length ≠ 5 then .error .valueError
  else
    match initParts opts cronUnits toks with
    | .error e => .error e
    | .ok parts =>
      if (parts.getD 2 defaultPart).values = (parts.getD 4 defaultPart).values then
        .error .attributeError
      else .ok ⟨opts, parts⟩

/-- `CronJob.__str__`. -/
def cronJobStrChars (j : CronJob) : List Char := joinSep [' '] (j.parts.map partStrChars)

/-- `CronJob.parts_order`:
`reversed(self.parts[:3] + [self.parts[4], self.parts[3]])`, i.e. month,
weekday, day, hour, minute. -/
def partsOrder (j : CronJob) : List CronPart :=
  (j.parts.take 3 ++ [jobDow j, jobMonth j]).reverse

/-- `CronJob.__lt__`: `any(part < other_part for ... in zip(parts_order,
other.parts_order))`. -/
def cronJobLt (a b : CronJob) : Bool :=
  ((partsOrder a).zip (partsOrder b)).any (fun pq => cronPartLt pq.1 pq.2)

/-- `CronJob.__eq__`: `all(part == other_part for ... in zip(parts,
other.parts))`. -/
def cronJobEq (a b : CronJob) : Bool :=
  (a.parts.zip b.parts).all (fun pq => cronPartEq pq.1 pq.2)

/-- `CronJob.to_list`. -/
def toFields (j : CronJob) : List (List Int) := j.parts.map CronPart.values

/-- Helper for `specFirstDiffLt`: decide by the first pair whose values
differ. -/
def specFirstDiffLtAux : List (CronPart × CronPart) → Bool
  | [] => false
  | pq :: rest =>
    if pq.1.values = pq.2.values then specFirstDiffLtAux rest
    else pyListLt pq.1.values pq.2.values

/-- The expression ordering described by the SPEC (not the code): two
expressions compare by the first differing FieldSet in the precedence
order month, weekday, day, hour, minute. -/
def specFirstDiffLt (a b : CronJob) : Bool :=
  specFirstDiffLtAux ((partsOrder a).zip (partsOrder b))

/-! ## Date-time model and the runner -/

/-- Wall-clock date-time.  The timezone attached to the Python `datetime`
is irrelevant to the search arithmetic: every operation below is a
wall-clock (`timedelta`/`relativedelta`) field manipulation, and the
claims use the fixed-offset zone Asia/Bangkok.  The year is an unbounded
integer (proleptic Gregorian); Python's `datetime` additionally restricts
years to `[1, 9999]` and raises `OverflowError` outside, a boundary no
claim goes near. -/
structure DateTime where
  year : Int
  month : Nat
  day : Nat
  hour : Nat
  minute : Nat
  second : Nat
  micro : Nat
deriving DecidableEq

/-- Gregorian leap year. -/
def isLeap (y : Int) : Bool := y % 4 = 0 ∧ (y % 100 ≠ 0 ∨ y % 400 = 0)

def daysInMonth (y : Int) (m : Nat) : Nat :=
  if m = 2 then (if isLeap y then 29 else 28)
  else if m = 4 ∨ m = 6 ∨ m = 9 ∨ m = 11 then 30
  else 31

/-- Day of week with Sunday = 0 (Sakamoto's method): the value of
`WEEKDAYS.get(self.date.strftime("%a"))` for a valid Gregorian date. -/
def weekdayOf (y : Int) (m d : Nat) : Int :=
  let t : List Int := [0, 3, 2, 5, 0, 3, 5, 1, 4, 6, 2, 4]
  let y2 : Int := if m < 3 then y - 1 else y
  (y2 + y2 / 4 - y2 / 100 + y2 / 400 + t.getD (m - 1) 0 + (d : Int)) % 7

/-- Month + 1 with year carry (other fields untouched). -/
def incMonthC (d : DateTime) : DateTime :=
  if d.month < 12 then { d with month := d.month + 1 }
  else { d with month := 1, year := d.year + 1 }

/-- Day + 1 with month/year carry. -/
def incDayC (d : DateTime) : DateTime :=
  if d.day < daysInMonth d.year d.month then { d with day := d.day + 1 }
  else incMonthC { d with day := 1 }

/-- Hour + 1 with carry. -/
def incHourC (d : DateTime) : DateTime :=
  if d.hour < 23 then { d with hour := d.hour + 1 } else incDayC { d with hour := 0 }

/-- `date + timedelta(minutes=1)` (seconds/microseconds kept). -/
def incMinute (d : DateTime) : DateTime :=
  if d.minute < 59 then { d with minute := d.minute + 1 } else incHourC { d with minute := 0 }

/-- Month - 1 with year borrow (other fields untouched). -/
def decMonthC (d : DateTime) : DateTime :=
  if 1 < d.month then { d with month := d.month - 1 }
  else { d with month := 12, year := d.year - 1 }

/-- Day - 1 with month/year borrow (borrowing lands on the previous
month's last day). -/
def decDayC (d : DateTime) : DateTime :=
  if 1 < d.day then { d with day := d.day - 1 }
  else
    let d2 := decMonthC d
    { d2 with day := daysInMonth d2.year d2.month }

/-- Hour - 1 with borrow. -/
def decHourC (d : DateTime) : DateTime :=
  if 0 < d.hour then { d with hour := d.hour - 1 } else decDayC { d with hour := 23 }

/-- `date + timedelta(minutes=-1)` (seconds/microseconds kept). -/
def decMinute (d : DateTime) : DateTime :=
  if 0 < d.minute then { d with minute := d.minute - 1 } else decHourC { d with minute := 59 }

/-- The four carry levels walked by `find_date`. -/
inductive Mode where
  | month
  | day
  | hour
  | minute
deriving DecidableEq

/-- Modelled from the spec: the combined effect of `next_date(date, mode,
reverse)` followed by `replace_date(date, mode, reverse)` from the external
`ddeutil.core.dtutils` package, whose source is not part of this
repository.  Per spec section 4.4: advance (or, reversed, retreat) the
cursor to the next boundary of the given unit and reset all finer-grained
units to their natural start consistent with the direction (minute 0 /
hour 0 / first day going forward; minute 59 / hour 23 / last day going
backward); seconds and microseconds are reset likewise. -/
def stepDate (mode : Mode) (reverse : Bool) (d : DateTime) : DateTime :=
  match mode, reverse with
  | .minute, false => { incMinute d with second := 0, micro := 0 }
  | .hour, false => { incHourC d with minute := 0, second := 0, micro := 0 }
  | .day, false => { incDayC d with hour := 0, minute := 0, second := 0, micro := 0 }
  | .month, false =>
    { incMonthC d with day := 1, hour := 0, minute := 0, second := 0, micro := 0 }
  | .minute, true => { decMinute d with second := 0, micro := 0 }
  | .hour, true => { decHourC d with minute := 59, second := 0, micro := 0 }
  | .day, true => { decDayC d with hour := 23, minute := 59, second := 0, micro := 0 }
  | .month, true =>
    let d2 := decMonthC d
    let d3 := { d2 with day := daysInMonth d2.year d2.month }
    { d3 with hour := 23, minute := 59, second := 0, micro := 0 }

/-- `getattr(self.date, mode)`. -/
def modeValue (d : DateTime) : Mode → Nat
  | .month => d.month
  | .day => d.day
  | .hour => d.hour
  | .minute => d.minute

/-- `getattr(self.date, switch[mode])` for the parent-unit table
`{month: year, day: month, hour: day, minute: hour}`. -/
def parentValue (d : DateTime) : Mode → Int
  | .month => d.year
  | .day => (d.month : Int)
  | .hour => (d.day : Int)
  | .minute => (d.hour : Int)

/-- `getattr(self.cron, mode).values`. -/
def modeSet (c : CronJob) : Mode → List Int
  | .month => (jobMonth c).values
  | .day => (jobDay c).values
  | .hour => (jobHour c).values
  | .minute => (jobMinute c).values

/-- The `while` condition of `CronRunner.__shift_date`: the unit value is
not in the allowed set, or (day mode only, the `_addition` lambda) the
weekday is not in the allowed day-of-week set. -/
def shiftMismatch (c : CronJob) (mode : Mode) (d : DateTime) : Bool :=
  ((modeValue d mode : Int) ∉ modeSet c mode) ∨
    (mode = Mode.day ∧ (weekdayOf d.year d.month d.day ∉ (jobDow c).values))

/-- The `while` loop of `CronRunner.__shift_date`, fuel-driven.  `current`
is the parent-unit value captured on entry.  The Boolean is the method's
return value: `true` means the parent unit changed and the four-level pass
must restart — except in month mode, where the source returns
`mode != "month"`, i.e. `False`, even when the year just changed. -/
def shiftDateAux (c : CronJob) (mode : Mode) (reverse : Bool) (current : Int) :
    Nat → DateTime → Option (DateTime × Bool)
  | 0, _ => none
  | fuel + 1, d =>
    if shiftMismatch c mode d then
      let d2 := stepDate mode reverse d
      if parentValue d2 mode ≠ current then some (d2, mode ≠ Mode.month)
      else shiftDateAux c mode reverse current fuel d2
    else some (d, false)

/-- `CronRunner.__shift_date` (fuel 64 always suffices; see
`shiftDateAux_isSome`). -/
def shiftDate (c : CronJob) (mode : Mode) (reverse : Bool) (d : DateTime) :
    Option (DateTime × Bool) :=
  shiftDateAux c mode reverse (parentValue d mode) 64 d

/-- One `all(not self.__shift_date(mode, reverse) for mode in ("month",
"day", "hour", "minute"))` pass of `find_date`, with the generator's
short-circuiting: the first mode whose shift reports a parent change
aborts the pass.  Returns the cursor after the pass and whether every mode
matched. -/
def onePass (c : CronJob) (reverse : Bool) (d : DateTime) : Option (DateTime × Bool) :=
  match shiftDate c .month reverse d with
  | none => none
  | some (d1, true) => some (d1, false)
  | some (d1, false) =>
    match shiftDate c .day reverse d1 with
    | none => none
    | some (d2, true) => some (d2, false)
    | some (d2, false) =>
      match shiftDate c .hour reverse d2 with
      | none => none
      | some (d3, true) => some (d3, false)
      | some (d3, false) =>
        match shiftDate c .minute reverse d3 with
        | none => none
        | some (d4, true) => some (d4, false)
        | some (d4, false) => some (d4, true)

/-- The `for _ in range(25)` loop of `CronRunner.find_date`.  On success
the raw (untruncated) cursor is returned; the Python code truncates only
the returned copy (`truncSec` below), keeping the cursor's seconds. -/
def findDateAux (c : CronJob) (reverse : Bool) : Nat → DateTime → Except PyErr DateTime
  | 0, _ => .error .recursionError
  | fuel + 1, d =>
    match onePass c reverse d with
    | none => .error .fuelExhausted
    | some (d2, true) => .ok d2
    | some (d2, false) => findDateAux c reverse fuel d2

/-- `CronRunner.find_date` (raw cursor; `RecursionError` after 25 failed
passes). -/
def findDate (c : CronJob) (reverse : Bool) (d : DateTime) : Except PyErr DateTime :=
  findDateAux c reverse 25 d

/-- `date.replace(second=0, microsecond=0)`. -/
def truncSec (d : DateTime) : DateTime := { d with second := 0, micro := 0 }

/-- Embedding of `CronRunner` state. -/
structure Runner where
  cron : CronJob
  date : DateTime
  startDate : DateTime
  resetFlag : Bool
deriving DecidableEq

/-- `CronRunner.__init__` for an explicit start date.  If the start has
nonzero seconds the cursor is advanced by one minute; its seconds and
microseconds are NOT truncated here (truncation happens only on the values
`find_date` returns). -/
def runnerInit (c : CronJob) (d : DateTime) : Runner :=
  let d2 := if 0 < d.second then incMinute d else d
  ⟨c, d2, d2, true⟩

/-- `CronRunner.next`: use the cursor as-is on the first call after
construction or reset, else advance it a minute, then search forward. -/
def runnerNext (r : Runner) : Except PyErr (DateTime × Runner) :=
  let d0 := if r.resetFlag then r.date else incMinute r.date
  match findDate r.cron false d0 with
  | .error e => .error e
  | .ok d2 => .ok (truncSec d2, ⟨r.cron, d2, r.startDate, false⟩)

/-- `CronRunner.prev`: always step the cursor back a minute, then search
backward. -/
def runnerPrev (r : Runner) : Except PyErr (DateTime × Runner) :=
  match findDate r.cron true (decMinute r.date) with
  | .error e => .error e
  | .ok d2 => .ok (truncSec d2, ⟨r.cron, d2, r.startDate, false⟩)

/-- `CronRunner.reset`. -/
def runnerReset (r : Runner) : Runner := ⟨r.cron, r.startDate, r.startDate, true⟩

/-! ## Claim support definitions -/

/-- Parse with default options, defaulting to a dummy job; used only on
inputs separately proved to parse. -/
def jobOf (s : String) : CronJob :=
  (cronJobParse defaultOptions s).toOption.getD ⟨defaultOptions, []⟩

/-- Collect `n` successive `next` values and the final runner state. -/
def collectNext : Nat → Runner → List DateTime × Runner
  | 0, r => ([], r)
  | n + 1, r =>
    match runnerNext r with
    | .ok (d, r2) =>
      let rest := collectNext n r2
      (d :: rest.1, rest.2)
    | .error _ => ([], r)

/-- Collect `n` successive `prev` values and the final runner state. -/
def collectPrev : Nat → Runner → List DateTime × Runner
  | 0, r => ([], r)
  | n + 1, r =>
    match runnerPrev r with
    | .ok (d, r2) =>
      let rest := collectPrev n r2
      (d :: rest.1, rest.2)
    | .error _ => ([], r)

/-- The expression of the end-to-end next/prev example. -/
def c3Job : CronJob := jobOf "*/30 */12 23 */3 *"

/-- Its runner started at 2024-01-01T12:00 (Asia/Bangkok wall clock). -/
def c3Runner : Runner := runnerInit c3Job ⟨2024, 1, 1, 12, 0, 0, 0⟩

/-- Day fixed to 31 with month fixed to February. -/
def c2Job : CronJob := jobOf "0 0 31 2 *"

/-- The all-wildcard expression. -/
def c8Job : CronJob := jobOf "* * * * *"

/-- Validity of a wall-clock instant (what Python's `datetime` guarantees
structurally).  The year needs no lower bound for the arithmetic. -/
def ValidDate (d : DateTime) : Prop :=
  1 ≤ d.month ∧ d.month ≤ 12 ∧ 1 ≤ d.day ∧ d.day ≤ daysInMonth d.year d.month ∧
    d.hour ≤ 23 ∧ d.minute ≤ 59 ∧ d.second ≤ 59 ∧ d.micro ≤ 999999

instance (d : DateTime) : Decidable (ValidDate d) := by
  unfold ValidDate
  infer_instance

/-- Total linearization of a date-time; strictly monotone in every field
given `ValidDate` bounds (the factor 32 over days and 13 over months pads
the varying month lengths). -/
def dateKey (d : DateTime) : Int :=
  (d.micro : Int) + 1000000 *
    ((d.second : Int) + 60 * ((d.minute : Int) + 60 * ((d.hour : Int) + 24 *
      ((d.day : Int) + 32 * ((d.month : Int) + 13 * d.year)))))

/-- The minute-resolution prefix of `dateKey`. -/
def minuteIdx (d : DateTime) : Int :=
  (d.minute : Int) + 60 * ((d.hour : Int) + 24 * ((d.day : Int) + 32 * ((d.month : Int) + 13 * d.year)))

/-- The hour-resolution prefix of `dateKey`. -/
def hourIdx (d : DateTime) : Int :=
  (d.hour : Int) + 24 * ((d.day : Int) + 32 * ((d.month : Int) + 13 * d.year))

/-- The day-resolution prefix of `dateKey`. -/
def dayIdx (d : DateTime) : Int := (d.day : Int) + 32 * ((d.month : Int) + 13 * d.year)

/-- The month-resolution prefix of `dateKey`. -/
def monthIdx (d : DateTime) : Int := (d.month : Int) + 13 * d.year

/-- The fields coarser than the parent of `mode`, which a parent-preserving
shift leaves untouched. -/
def modeCoarseEq : Mode → DateTime → DateTime → Prop
  | .minute, a, b => a.year = b.year ∧ a.month = b.month ∧ a.day = b.day
  | .hour, a, b => a.year = b.year ∧ a.month = b.month
  | .day, a, b => a.year = b.year
  | .month, _, _ => True

/-- Loop measure for `shiftDateAux`: how many steps remain until the
stepped unit reaches the boundary at which its parent must change. -/
def shiftMeasure (mode : Mode) (reverse : Bool) (d : DateTime) : Nat :=
  match mode, reverse with
  | .minute, false => 59 - d.minute
  | .hour, false => 23 - d.hour
  | .day, false => daysInMonth d.year d.month - d.day
  | .month, false => 12 - d.month
  | .minute, true => d.minute
  | .hour, true => d.hour
  | .day, true => d.day - 1
  | .month, true => d.month - 1

/-- The arithmetic progression `a, a + s, ..., a + s * (n - 1)`. -/
def apList (a s : Int) : Nat → List Int
  | 0 => []
  | n + 1 => a :: apList (a + s) s n

/-- The characters that can occur in a serialization under default options
(digits, `*`, `/`, `-`, `,`, `?`). -/
def serialChars : List Char :=
  ['0', '1', '2', '3', '4', '5', '6', '7', '8', '9', '*', '/', '-', ',', '?']

/-- The alternative name starts with a character that can never occur in a
default-options serialization (used to show `replace_alternative` is the
identity on serialized strings). -/
def headNotSerial (a : String) : Bool :=
  match a.data with
  | [] => false
  | c :: _ => decide (c ∉ serialChars)

/-- The integer values denoted by one element of `CronPart.ranges`. -/
def flattenItem : RangeItem → List Int
  | .single v => [v]
  | .span a b => intRange a b

/-- The integer values denoted by a `CronPart.ranges` result. -/
def flattenRanges : List RangeItem → List Int
  | [] => []
  | r :: rs => flattenItem r ++ flattenRanges rs

/-- The characters a `CronPart.ranges` element contributes to the
serialization under default options (the `filler` calls reduce to decimal
numerals). -/
def itemChars : RangeItem → List Char
  | .single v => intToChars v
  | .span a b => intToChars a ++ '-' :: intToChars b

/-! ## General lemmas -/

theorem mem_insertUnique {y x : Int} {l : List Int} :
    y ∈ insertUnique x l ↔ y = x ∨ y ∈ l := by
  induction l with
  | nil => simp [insertUnique]
  | cons a l ih =>
    simp only [insertUnique]
    split
    · rename_i hxa
      subst hxa
      constructor
      · exact fun h => Or.inr h
      · rintro (rfl | h)
        · exact List.mem_cons_self _ _
        · exact h
    · split
      · exact List.mem_cons
      · rw [List.mem_cons, ih, List.mem_cons]
        tauto

theorem sorted_insertUnique {x : Int} {l : List Int}
    (h : List.Sorted (· < ·) l) : List.Sorted (· < ·) (insertUnique x l) := by
  induction l with
  | nil => simp [insertUnique]
  | cons a l ih =>
    rcases List.sorted_cons.mp h with ⟨ha, hl⟩
    simp only [insertUnique]
    split
    · exact h
    · rename_i hne
      split
      · rename_i hlt
        refine List.sorted_cons.mpr ⟨?_, h⟩
        intro b hb
        rcases List.mem_cons.mp hb with rfl | hbl
        · exact hlt
        · exact lt_trans hlt (ha b hbl)
      · rename_i hnlt
        have hax : a < x := by omega
        refine List.sorted_cons.mpr ⟨?_, ih hl⟩
        intro b hb
        rcases mem_insertUnique.mp hb with rfl | hbl
        · exact hax
        · exact ha b hbl

theorem sorted_sortedUnique (l : List Int) : List.Sorted (· < ·) (sortedUnique l) := by
  induction l with
  | nil => simp [sortedUnique]
  | cons a l ih => exact sorted_insertUnique ih

theorem mem_sortedUnique {y : Int} {l : List Int} :
    y ∈ sortedUnique l ↔ y ∈ l := by
  induction l with
  | nil => simp [sortedUnique]
  | cons a l ih =>
    show y ∈ insertUnique a (sortedUnique l) ↔ _
    rw [mem_insertUnique, ih, List.mem_cons]

/-- On a list that is already strictly ascending, `sortedUnique` is the
identity. -/
theorem sortedUnique_eq_self {l : List Int}
    (h : List.Sorted (· < ·) l) : sortedUnique l = l := by
  induction l with
  | nil => rfl
  | cons a l ih =>
    rcases List.sorted_cons.mp h with ⟨ha, hl⟩
    show insertUnique a (sortedUnique l) = a :: l
    rw [ih hl]
    cases l with
    | nil => rfl
    | cons b m =>
      have hab : a < b := ha b (List.mem_cons_self b m)
      simp only [insertUnique]
      rw [if_neg (by omega), if_pos hab]

theorem sorted_head_le {a v : Int} {l : List Int}
    (h : List.Sorted (· < ·) (a :: l)) (hv : v ∈ a :: l) : a ≤ v := by
  rcases List.mem_cons.mp hv with rfl | hvl
  · exact le_refl _
  · exact le_of_lt ((List.sorted_cons.mp h).1 v hvl)

theorem sorted_le_getLast {v : Int} {l : List Int}
    (h : List.Sorted (· < ·) l) (hv : v ∈ l) (hne : l ≠ []) :
    v ≤ l.getLast hne := by
  induction l generalizing v with
  | nil => simp at hv
  | cons a l ih =>
    cases l with
    | nil =>
      rcases List.mem_cons.mp hv with rfl | h2
      · simp [List.getLast]
      · simp at h2
    | cons b m =>
      rw [List.getLast_cons (List.cons_ne_nil b m)]
      rcases List.sorted_cons.mp h with ⟨ha, hl⟩
      rcases List.mem_cons.mp hv with rfl | hvl
      · have h1 : v < b := ha b (List.mem_cons_self b m)
        have h2 := ih hl (List.mem_cons_self b m) (List.cons_ne_nil b m)
        omega
      · exact ih hl hvl (List.cons_ne_nil b m)

/-- Two strictly ascending integer lists with the same members are equal. -/
theorem sorted_ext {l m : List Int}
    (hl : List.Sorted (· < ·) l) (hm : List.Sorted (· < ·) m)
    (h : ∀ v : Int, v ∈ l ↔ v ∈ m) : l = m := by
  refine List.eq_of_perm_of_sorted ?_ hl hm
  exact (List.perm_ext_iff_of_nodup hl.nodup hm.nodup).mpr h

theorem mem_intRange {a b v : Int} : v ∈ intRange a b ↔ a ≤ v ∧ v ≤ b := by
  unfold intRange
  rw [List.mem_map]
  constructor
  · rintro ⟨i, hi, rfl⟩
    rw [List.mem_range] at hi
    omega
  · rintro ⟨h1, h2⟩
    refine ⟨(v - a).toNat, ?_, ?_⟩
    · rw [List.mem_range]; omega
    · omega

theorem intRange_sorted (a b : Int) : List.Sorted (· < ·) (intRange a b) :=
  (List.pairwise_lt_range _).map _ (fun _ _ h => by omega)

theorem intRange_singleton (a : Int) : intRange a a = [a] := by
  have h1 : (a + 1 - a).toNat = 1 := by omega
  simp [intRange, h1, List.range_succ]

theorem intRange_snoc {a b : Int} (h : a ≤ b + 1) :
    intRange a (b + 1) = intRange a b ++ [b + 1] := by
  have h1 : (b + 1 + 1 - a).toNat = (b + 1 - a).toNat + 1 := by omega
  have h2 : a + ((b + 1 - a).toNat : Int) = b + 1 := by omega
  simp only [intRange, h1, List.range_succ, List.map_append, List.map_cons, List.map_nil, h2]

theorem intRange_ne_nil {a b : Int} (h : a ≤ b) : intRange a b ≠ [] := by
  intro hc
  have := mem_intRange.mpr (⟨le_refl a, h⟩ : a ≤ a ∧ a ≤ b)
  rw [hc] at this
  simp at this

theorem digitChar_toNat {n : Nat} (h : n < 10) : (Nat.digitChar n).toNat = 48 + n := by
  interval_cases n <;> rfl

theorem digitChar_isDigit {n : Nat} (h : n < 10) : (Nat.digitChar n).isDigit = true := by
  interval_cases n <;> rfl

theorem natToCharsAux_ne_nil {fuel n : Nat} (h : n < fuel) :
    natToCharsAux fuel n ≠ [] := by
  cases fuel with
  | zero => omega
  | succ f =>
    simp only [natToCharsAux]
    split
    · simp
    · simp

theorem natToCharsAux_digits {fuel n : Nat} (h : n < fuel) :
    ∀ c ∈ natToCharsAux fuel n, c.isDigit = true := by
  induction fuel generalizing n with
  | zero => omega
  | succ f ih =>
    simp only [natToCharsAux]
    split
    · intro c hc
      rcases List.mem_singleton.mp hc with rfl
      exact digitChar_isDigit (by omega)
    · rename_i h10
      intro c hc
      rcases List.mem_append.mp hc with h1 | h1
      · exact ih (by omega) c h1
      · rcases List.mem_singleton.mp h1 with rfl
        exact digitChar_isDigit (Nat.mod_lt _ (by omega))

theorem charsToNatAcc_append (acc : Nat) (l : List Char) (c : Char) :
    charsToNatAcc acc (l ++ [c]) = 10 * charsToNatAcc acc l + (c.toNat - 48) := by
  induction l generalizing acc with
  | nil => rfl
  | cons a l ih =>
    show charsToNatAcc (10 * acc + (a.toNat - 48)) (l ++ [c]) = _
    rw [ih]
    rfl

set_option maxHeartbeats 1000000 in
theorem charsToNatAcc_natToCharsAux {fuel n : Nat} (h : n < fuel) :
    charsToNatAcc 0 (natToCharsAux fuel n) = n := by
  induction fuel generalizing n with
  | zero => omega
  | succ f ih =>
    simp only [natToCharsAux]
    split
    · rename_i h10
      have e : charsToNatAcc 0 [Nat.digitChar n]
          = 10 * 0 + ((Nat.digitChar n).toNat - 48) := rfl
      rw [e, digitChar_toNat h10]
      omega
    · rename_i h10
      rw [charsToNatAcc_append, ih (by omega), digitChar_toNat (Nat.mod_lt _ (by omega))]
      omega

theorem natToChars_ne_nil (n : Nat) : natToChars n ≠ [] :=
  natToCharsAux_ne_nil (Nat.lt_succ_self n)

theorem natToChars_digits (n : Nat) : ∀ c ∈ natToChars n, c.isDigit = true :=
  natToCharsAux_digits (Nat.lt_succ_self n)

theorem charsToNat?_natToChars (n : Nat) : charsToNat? (natToChars n) = some n := by
  unfold charsToNat?
  rw [if_pos ⟨natToChars_ne_nil n, List.all_eq_true.mpr (natToChars_digits n)⟩]
  unfold natToChars
  rw [charsToNatAcc_natToCharsAux (Nat.lt_succ_self n)]

theorem isDigit_ne_dash {c : Char} (h : c.isDigit = true) : c ≠ '-' := by
  intro hc; subst hc; simp [Char.isDigit] at h

theorem isDigit_ne_plus {c : Char} (h : c.isDigit = true) : c ≠ '+' := by
  intro hc; subst hc; simp [Char.isDigit] at h

theorem pyIntOfChars_of_digits {l : List Char} (hne : l ≠ [])
    (hdig : ∀ c ∈ l, c.isDigit = true) :
    pyIntOfChars l = (charsToNat? l).map (fun n => (n : Int)) := by
  have hhead : ∀ c, l.head? = some c → c.isDigit = true := by
    intro c hc
    exact hdig c (List.mem_of_mem_head? hc)
  unfold pyIntOfChars
  rw [if_neg hne, if_neg, if_neg]
  · intro h
    exact isDigit_ne_plus (hhead _ h) rfl
  · intro h
    exact isDigit_ne_dash (hhead _ h) rfl

theorem pyIntOfChars_natToChars (n : Nat) : pyIntOfChars (natToChars n) = some (n : Int) := by
  rw [pyIntOfChars_of_digits (natToChars_ne_nil n) (natToChars_digits n),
    charsToNat?_natToChars]
  rfl

theorem splitOnPred_ne_nil (p : Char → Bool) (l : List Char) : splitOnPred p l ≠ [] := by
  cases l with
  | nil => simp [splitOnPred]
  | cons c rest =>
    rcases hr : splitOnPred p rest with _ | ⟨g, gs⟩
    · simp [splitOnPred, hr]
    · simp only [splitOnPred, hr]
      split <;> simp

theorem splitOnPred_sep {p : Char → Bool} {sep : Char} (hsep : p sep = true)
    (l : List Char) : splitOnPred p (sep :: l) = [] :: splitOnPred p l := by
  rcases hr : splitOnPred p l with _ | ⟨g, gs⟩
  · exact absurd hr (splitOnPred_ne_nil p l)
  · simp only [splitOnPred, hr]
    rw [if_pos hsep]

theorem splitOnPred_prepend {p : Char → Bool} {t : List Char}
    (ht : ∀ c ∈ t, p c = false) (l : List Char) {g : List Char} {gs : List (List Char)}
    (h : splitOnPred p l = g :: gs) :
    splitOnPred p (t ++ l) = (t ++ g) :: gs := by
  induction t with
  | nil => simpa using h
  | cons c t ih =>
    have hc : p c = false := ht c (List.mem_cons_self c t)
    have ih2 := ih (fun d hd => ht d (List.mem_cons_of_mem c hd))
    have : splitOnPred p (c :: (t ++ l)) = (c :: (t ++ g)) :: gs := by
      simp only [splitOnPred, ih2]
      simp [hc]
    simpa using this

theorem splitOnPred_no_sep {p : Char → Bool} {l : List Char}
    (h : ∀ c ∈ l, p c = false) : splitOnPred p l = [l] := by
  have h0 : splitOnPred p ([] : List Char) = [] :: [] := by simp [splitOnPred]
  have := splitOnPred_prepend h ([] : List Char) h0
  simpa using this

/-- Splitting a separator-joined list of separator-free groups recovers the
groups. -/
theorem splitOnPred_joinSep {p : Char → Bool} {sep : Char} (hsep : p sep = true) :
    ∀ ts : List (List Char), ts ≠ [] → (∀ t ∈ ts, ∀ c ∈ t, p c = false) →
    splitOnPred p (joinSep [sep] ts) = ts
  | [], h, _ => absurd rfl h
  | [t], _, hts => by
    simp only [joinSep]
    exact splitOnPred_no_sep (hts t (List.mem_singleton.mpr rfl))
  | t :: t2 :: ts, _, hts => by
    show splitOnPred p (t ++ [sep] ++ joinSep [sep] (t2 :: ts)) = t :: t2 :: ts
    have hrest : splitOnPred p (joinSep [sep] (t2 :: ts)) = t2 :: ts :=
      splitOnPred_joinSep hsep (t2 :: ts) (by simp)
        (fun u hu => hts u (List.mem_cons_of_mem t hu))
    have hmid : splitOnPred p (sep :: joinSep [sep] (t2 :: ts)) =
        [] :: t2 :: ts := by
      rw [splitOnPred_sep hsep, hrest]
    have := splitOnPred_prepend (hts t (List.mem_cons_self t (t2 :: ts)))
      (sep :: joinSep [sep] (t2 :: ts)) hmid
    simpa using this

/-- Splitting a space-joined list of nonempty whitespace-free tokens with
Python `.split()` recovers the tokens. -/
theorem pySplitWs_joinSep (ts : List (List Char))
    (hne : ∀ t ∈ ts, t ≠ []) (hws : ∀ t ∈ ts, ∀ c ∈ t, isPyWs c = false) :
    pySplitWs (joinSep [' '] ts) = ts := by
  cases ts with
  | nil =>
    simp [pySplitWs, joinSep, splitOnPred]
  | cons t ts =>
    unfold pySplitWs
    rw [splitOnPred_joinSep (by simp [isPyWs]) (t :: ts) (by simp) hws]
    rw [List.filter_eq_self.mpr]
    intro u hu
    simpa using hne u hu

theorem isPrefixOf_cons_head {c : Char} {p l : List Char}
    (h : (c :: p).isPrefixOf l = true) : ∃ t, l = c :: t := by
  cases l with
  | nil => simp [List.isPrefixOf] at h
  | cons b bs =>
    simp only [List.isPrefixOf, Bool.and_eq_true, beq_iff_eq] at h
    exact ⟨bs, by rw [h.1]⟩

/-- If the first character of the (nonempty) pattern never occurs in `l`,
the pattern does not occur in `l`. -/
theorem containsSub_eq_false {c : Char} {p l : List Char}
    (h : c ∉ l) : containsSub (c :: p) l = false := by
  unfold containsSub
  rw [List.any_eq_false]
  intro i _
  intro hc
  rcases isPrefixOf_cons_head hc with ⟨t, ht⟩
  have : c ∈ l.drop i := by rw [ht]; exact List.mem_cons_self c t
  exact h (List.mem_of_mem_drop this)

/-! ## Construction invariant -/

theorem outOfRange_ok_sorted {u : CronUnit} {l res : List Int}
    (hs : List.Sorted (· < ·) l) (h : outOfRange u l = .ok res) :
    res = l ∧ ∀ v ∈ l, (u.min : Int) ≤ v ∧ v ≤ (u.max : Int) := by
  cases l with
  | nil =>
    refine ⟨?_, by simp⟩
    simp only [outOfRange] at h
    cases h
    rfl
  | cons first rest =>
    simp only [outOfRange] at h
    by_cases h1 : first < (u.min : Int)
    · rw [if_pos h1] at h
      exact Except.noConfusion h
    · rw [if_neg h1] at h
      by_cases h2 : (u.max : Int) < (first :: rest).getLast (List.cons_ne_nil first rest)
      · rw [if_pos h2] at h
        exact Except.noConfusion h
      · rw [if_neg h2] at h
        cases h
        refine ⟨rfl, ?_⟩
        intro v hv
        have hhead := sorted_head_le hs hv
        have hlast := sorted_le_getLast hs hv (List.cons_ne_nil first rest)
        omega

theorem outOfRange_ok_of_bounds {u : CronUnit} {l : List Int}
    (hb : ∀ v ∈ l, (u.min : Int) ≤ v ∧ v ≤ (u.max : Int)) :
    outOfRange u l = .ok l := by
  cases l with
  | nil => rfl
  | cons first rest =>
    have h1 := hb first (List.mem_cons_self first rest)
    have h2 := hb ((first :: rest).getLast (List.cons_ne_nil first rest))
      (List.getLast_mem (List.cons_ne_nil first rest))
    simp only [outOfRange]
    rw [if_neg (by omega), if_neg (by omega)]

theorem cronPartInit_ok {u : CronUnit} {inp : PartInput} {opts : Options} {p : CronPart}
    (h : cronPartInit u inp opts = .ok p) :
    ∃ raw, cronPartRaw u inp = .ok raw ∧ p = ⟨u, opts, sortedUnique raw⟩ ∧
      List.Sorted (· < ·) p.values ∧
      ∀ v ∈ p.values, (u.min : Int) ≤ v ∧ v ≤ (u.max : Int) := by
  cases hraw : cronPartRaw u inp with
  | error e =>
    simp only [cronPartInit, hraw] at h
    exact Except.noConfusion h
  | ok raw =>
    cases hor : outOfRange u (sortedUnique raw) with
    | error e =>
      simp only [cronPartInit, hraw, hor] at h
      exact Except.noConfusion h
    | ok norm =>
      simp only [cronPartInit, hraw, hor, Except.ok.injEq] at h
      obtain ⟨hnorm, hbounds⟩ := outOfRange_ok_sorted (sorted_sortedUnique raw) hor
      subst hnorm
      refine ⟨raw, rfl, h.symm, ?_, ?_⟩
      · rw [← h]
        exact sorted_sortedUnique raw
      · rw [← h]
        exact hbounds

/-! ## Claim theorems -/

/-- C6: every successfully constructed `CronPart` (from any accepted string
or integer-list input) has a strictly ascending, duplicate-free values
list whose every element lies in the inclusive domain
`[unit.min, unit.max]`; the record is never mutated afterwards, so the
invariant is permanent. -/
theorem c6_fieldset_invariant (u : CronUnit) (inp : PartInput) (opts : Options)
    (p : CronPart) (h : cronPartInit u inp opts = .ok p) :
    List.Sorted (· < ·) p.values ∧
      ∀ v ∈ p.values, (u.min : Int) ≤ v ∧ v ≤ (u.max : Int) := by
  obtain ⟨raw, _, _, hsorted, hbounds⟩ := cronPartInit_ok h
  exact ⟨hsorted, hbounds⟩

/-- Witness for C6 at the concrete minute-field input `"5,1-3,20-40/7"`. -/
theorem c6_fieldset_invariant_witness :
    List.Sorted (· < ·) (CronPart.values ⟨minuteUnit, defaultOptions, [1, 2, 3, 5, 20, 27, 34]⟩) ∧
      ∀ v ∈ CronPart.values ⟨minuteUnit, defaultOptions, [1, 2, 3, 5, 20, 27, 34]⟩,
        (minuteUnit.min : Int) ≤ v ∧ v ≤ (minuteUnit.max : Int) :=
  c6_fieldset_invariant minuteUnit (.str "5,1-3,20-40/7") defaultOptions
    ⟨minuteUnit, defaultOptions, [1, 2, 3, 5, 20, 27, 34]⟩ (by rfl)

/-- C10: `CronPart` equality and ordering depend only on the `values`
lists — equality holds iff they are element-wise equal and ordering is
their lexicographic comparison — ignoring the field identity (unit) and
the serialization options; in particular a minute part `[1, 2]` equals an
hour part `[1, 2]` carrying different options. -/
theorem c10_part_compare_values_only :
    (∀ p q : CronPart, cronPartEq p q = true ↔ p.values = q.values) ∧
    (∀ p q : CronPart, cronPartLt p q = pyListLt p.values q.values) ∧
    cronPartEq ⟨minuteUnit, defaultOptions, [1, 2]⟩
      ⟨hourUnit, ⟨true, true, true⟩, [1, 2]⟩ = true := by
  refine ⟨?_, fun p q => rfl, rfl⟩
  intro p q
  unfold cronPartEq
  exact beq_iff_eq

/-- C9 counterexample: parsing the text `?` for the minute field does NOT
raise — it succeeds with the empty value set (the claim asserts a
`ParseError` for every field other than day-of-month/day-of-week). -/
theorem c9_cex_minute_question :
    cronPartInit minuteUnit (.str "?") defaultOptions =
      .ok ⟨minuteUnit, defaultOptions, []⟩ := rfl

/-- C9 (amended): the token `?` expands to the empty value set for EVERY
field — minute, hour, month and year included — and single-field parsing
never rejects it; only the whole-expression validation constrains where an
empty set may appear. -/
theorem c9_question_empty_for_all_fields :
    ∀ (u : CronUnit) (opts : Options),
      cronPartInit u (.str "?") opts = .ok ⟨u, opts, []⟩ :=
  fun _ _ => rfl

/-- C7: evaluating the whole-expression validation.  `"* * ? * ?"` (both
day fields empty) is rejected, but with `AttributeError` — the chained
`self.day == self.dow == []` comparison evaluates `dow == []`, reading
`.values` off the plain list `[]` — not the intended `ValueError`.
Expressions with exactly one of the two empty parse fine, and the same
`AttributeError` even fires when day and day-of-week hold equal nonempty
values (`"* * 3 * 3"`). -/
theorem c7_day_dow_validation_eval :
    cronJobParse defaultOptions "* * ? * ?" = .error .attributeError ∧
    (cronJobParse defaultOptions "* * ? * *").toOption.isSome = true ∧
    (cronJobParse defaultOptions "* * * * ?").toOption.isSome = true ∧
    cronJobParse defaultOptions "* * 3 * 3" = .error .attributeError :=
  ⟨rfl, rfl, rfl, rfl⟩

/-- C5 counterexample, at the claim's own pair: the code's `<` (an `any`
over the precedence pairs) accepts
`Parse("*/5 * * * *") < Parse("*/5,3,6 9-17/2 * 1-3 1-5")`, but the
claimed first-differing-FieldSet rule says the opposite — the first
differing position in precedence order is the month field, where the
second job's list `[1, 2, 3]` is a proper prefix (hence smaller). -/
theorem c5_cex_first_diff_disagrees :
    cronJobLt (jobOf "*/5 * * * *") (jobOf "*/5,3,6 9-17/2 * 1-3 1-5") = true ∧
    specFirstDiffLt (jobOf "*/5 * * * *") (jobOf "*/5,3,6 9-17/2 * 1-3 1-5") = false :=
  ⟨rfl, rfl⟩

/-- C5 (amended): the comparison holds exactly when SOME position of the
precedence order month, weekday, day, hour, minute has the left job's
values list lexicographically smaller (Python `any`, not the first
differing position); the precedence order is as claimed, and the claim's
concrete instance does hold: `Parse("*/5 * * * *")` compares less than
`Parse("*/5,3,6 9-17/2 * 1-3 1-5")` and the two are unequal. -/
theorem c5_lt_is_any_position :
    (∀ a b : CronJob, cronJobLt a b = true ↔
      ∃ pq ∈ (partsOrder a).zip (partsOrder b),
        pyListLt pq.1.values pq.2.values = true) ∧
    (∀ j : CronJob, j.parts.length = 5 →
      partsOrder j = [jobMonth j, jobDow j, jobDay j, jobHour j, jobMinute j]) ∧
    cronJobLt (jobOf "*/5 * * * *") (jobOf "*/5,3,6 9-17/2 * 1-3 1-5") = true ∧
    cronJobEq (jobOf "*/5 * * * *") (jobOf "*/5,3,6 9-17/2 * 1-3 1-5") = false := by
  refine ⟨?_, ?_, rfl, rfl⟩
  · intro a b
    unfold cronJobLt cronPartLt
    rw [List.any_eq_true]
  · intro j hj
    rcases j with ⟨o, parts⟩
    rcases parts with _ | ⟨p0, _ | ⟨p1, _ | ⟨p2, _ | ⟨p3, _ | ⟨p4, tail⟩⟩⟩⟩⟩ <;>
      simp_all [partsOrder, jobMinute, jobHour, jobDay, jobMonth, jobDow]

set_option maxRecDepth 10000 in
/-- C3: for `*/30 */12 23 */3 *` with a runner started at 2024-01-01T12:00
(wall clock in the fixed-offset zone Asia/Bangkok), the first four `next`
values and, after `reset`, the first seven `prev` values are exactly the
instants the claim lists. -/
theorem c3_end_to_end_next_prev :
    (collectNext 4 c3Runner).1 =
      [⟨2024, 1, 23, 0, 0, 0, 0⟩, ⟨2024, 1, 23, 0, 30, 0, 0⟩,
       ⟨2024, 1, 23, 12, 0, 0, 0⟩, ⟨2024, 1, 23, 12, 30, 0, 0⟩] ∧
    (collectPrev 7 (runnerReset (collectNext 4 c3Runner).2)).1 =
      [⟨2023, 10, 23, 12, 30, 0, 0⟩, ⟨2023, 10, 23, 12, 0, 0, 0⟩,
       ⟨2023, 10, 23, 0, 30, 0, 0⟩, ⟨2023, 10, 23, 0, 0, 0, 0⟩,
       ⟨2023, 7, 23, 12, 30, 0, 0⟩, ⟨2023, 7, 23, 12, 0, 0, 0⟩,
       ⟨2023, 7, 23, 0, 30, 0, 0⟩] :=
  ⟨rfl, rfl⟩

/-- C2 counterexample: for day fixed to 31 and month fixed to February —
the claim's own non-convergence example — the search does NOT raise
within the 25-pass bound; it returns 2025-01-31T00:00, an instant whose
month (January) is not in the expression's month set `[2]`.  (The month
scan rolled into a new year and `__shift_date` returned `False` for the
month level without a match.) -/
theorem c2_cex_feb_31_returns :
    ((runnerNext (runnerInit c2Job ⟨2024, 1, 1, 0, 0, 0, 0⟩)).toOption.map (fun x => x.1)
      = some ⟨2025, 1, 31, 0, 0, 0, 0⟩) ∧
    (jobMonth c2Job).values = [2] ∧ (1 : Int) ∉ (jobMonth c2Job).values := by
  refine ⟨rfl, rfl, ?_⟩
  decide

/-- C8 counterexample: construction does NOT truncate seconds or
microseconds — a start of 12:00:30 is stored as 12:01:30 (minute bumped,
seconds kept) — and for a start of 12:00:00.500000 with `* * * * *` the
first `next` value is 12:00:00.000000, which is strictly earlier than the
true start. -/
theorem c8_cex_no_truncation_at_init :
    (runnerInit c8Job ⟨2024, 1, 1, 12, 0, 30, 0⟩).date = ⟨2024, 1, 1, 12, 1, 30, 0⟩ ∧
    ((runnerNext (runnerInit c8Job ⟨2024, 1, 1, 12, 0, 0, 500000⟩)).toOption.map (fun x => x.1)
      = some ⟨2024, 1, 1, 12, 0, 0, 0⟩) ∧
    dateKey ⟨2024, 1, 1, 12, 0, 0, 0⟩ < dateKey ⟨2024, 1, 1, 12, 0, 0, 500000⟩ := by
  refine ⟨rfl, rfl, ?_⟩
  decide

/-! ## Arithmetic progression lemmas (for C4) -/

theorem apList_length (a s : Int) (n : Nat) : (apList a s n).length = n := by
  induction n generalizing a with
  | zero => rfl
  | succ m ih => simp [apList, ih]

theorem apList_ne_nil (a s : Int) {n : Nat} (h : 1 ≤ n) : apList a s n ≠ [] := by
  cases n with
  | zero => omega
  | succ m => simp [apList]

theorem apList_headD (a s : Int) {n : Nat} (h : 1 ≤ n) : (apList a s n).headD 0 = a := by
  cases n with
  | zero => omega
  | succ m => rfl

theorem apList_getLastD (a s : Int) {n : Nat} (h : 1 ≤ n) :
    (apList a s n).getLastD 0 = a + s * ((n : Int) - 1) := by
  induction n generalizing a with
  | zero => omega
  | succ m ih =>
    cases m with
    | zero => simp [apList]
    | succ k =>
      show (a :: apList (a + s) s (k + 1)).getLastD 0 = _
      rw [List.getLastD_cons]
      have h2 := ih (a := a + s) (by omega)
      rw [List.getLastD_eq_getLast?] at h2 ⊢
      rcases hl : (apList (a + s) s (k + 1)).getLast? with _ | v
      · exact absurd (List.getLast?_eq_none_iff.mp hl) (apList_ne_nil _ _ (by omega))
      · rw [hl] at h2
        simp only [Option.getD_some] at h2 ⊢
        push_cast at h2 ⊢
        linear_combination h2

theorem mem_apList {v a s : Int} {n : Nat} :
    v ∈ apList a s n ↔ ∃ i : Nat, i < n ∧ v = a + s * i := by
  induction n generalizing a with
  | zero => simp [apList]
  | succ m ih =>
    simp only [apList, List.mem_cons, ih]
    constructor
    · rintro (rfl | ⟨i, hi, rfl⟩)
      · exact ⟨0, by omega, by push_cast; ring⟩
      · exact ⟨i + 1, by omega, by push_cast; ring⟩
    · rintro ⟨i, hi, rfl⟩
      cases i with
      | zero => left; push_cast; ring
      | succ k => right; exact ⟨k, by omega, by push_cast; ring⟩

theorem apList_sorted (a : Int) {s : Int} (hs : 1 ≤ s) (n : Nat) :
    List.Sorted (· < ·) (apList a s n) := by
  induction n generalizing a with
  | zero => simp [apList]
  | succ m ih =>
    rw [apList, List.sorted_cons]
    refine ⟨?_, ih (a + s)⟩
    intro b hb
    rcases mem_apList.mp hb with ⟨i, _, rfl⟩
    nlinarith [Int.natCast_nonneg i]

theorem gapsAllEq_apList (s : Int) (n : Nat) (a : Int) :
    gapsAllEq s (apList a s n) = true := by
  induction n generalizing a with
  | zero => rfl
  | succ m ih =>
    cases m with
    | zero => rfl
    | succ k =>
      show ((a + s - a == s) && gapsAllEq s (apList (a + s) s (k + 1))) = true
      rw [ih (a + s)]
      simp

theorem pyRound_intCast (k : Int) : pyRound (k : Rat) = k := by
  have hf : (k : Rat).floor = k := by
    have h1 : (k : Rat).floor = ⌊(k : Rat)⌋ := rfl
    rw [h1, Int.floor_intCast]
  unfold pyRound
  simp only [hf, sub_self]
  rw [if_pos (by norm_num)]

/-- The interval-serialization behaviour for a genuine (3-or-more element,
step-at-least-2) arithmetic progression. -/
theorem c4_step_props (u : CronUnit) (a s : Int) (n : Nat)
    (hn : 3 ≤ n) (hs : 2 ≤ s) :
    stepOf ⟨u, defaultOptions, apList a s n⟩ = some s ∧
    isInterval ⟨u, defaultOptions, apList a s n⟩ = true := by
  obtain ⟨m, rfl⟩ : ∃ m, n = m + 3 := ⟨n - 3, by omega⟩
  have hstep : stepOf ⟨u, defaultOptions, apList a s (m + 3)⟩ = some s := by
    show stepOf ⟨u, defaultOptions, a :: (a + s) :: apList (a + s + s) s (m + 1)⟩ = some s
    cases m with
    | zero =>
      simp only [apList, stepOf]
      rw [if_pos (by omega)]
      congr 1
      omega
    | succ k =>
      simp only [apList, stepOf]
      rw [if_pos (by omega)]
      congr 1
      omega
  refine ⟨hstep, ?_⟩
  unfold isInterval
  rw [hstep]
  exact gapsAllEq_apList s (m + 3) a

/-- C4 (amended): for a FieldSet whose values form an arithmetic
progression of at least THREE elements with common step
`s = values[1] - values[0]` of at least 2 (the code's `step` property
returns `None` for two-element progressions and unit steps), default
serialization emits `*/s` exactly when the progression starts at the
domain minimum and overruns the domain maximum by less than one more step
(`max + s > unit.max`; the claimed element-count condition is automatic
for a pure progression), and `min-max/s` otherwise. -/
theorem c4_interval_serialization (u : CronUnit) (a s : Int) (n : Nat)
    (hn : 3 ≤ n) (hs : 2 ≤ s)
    (hlo : (u.min : Int) ≤ a) (hhi : a + s * ((n : Int) - 1) ≤ (u.max : Int)) :
    partStrChars ⟨u, defaultOptions, apList a s n⟩ =
      if a = (u.min : Int) ∧ (u.max : Int) < a + s * ((n : Int) - 1) + s
      then '*' :: '/' :: intToChars s
      else intToChars a ++ '-' :: intToChars (a + s * ((n : Int) - 1)) ++ '/' :: intToChars s := by
  obtain ⟨hstep, hint⟩ := c4_step_props u a s n hn hs
  have hlen : (apList a s n).length = n := apList_length a s n
  have hmin : partMin ⟨u, defaultOptions, apList a s n⟩ = a := by
    unfold partMin
    exact apList_headD a s (by omega)
  have hmax : partMax ⟨u, defaultOptions, apList a s n⟩ = a + s * ((n : Int) - 1) := by
    unfold partMax
    exact apList_getLastD a s (by omega)
  have hfull : isFull ⟨u, defaultOptions, apList a s n⟩ = false := by
    unfold isFull
    simp only [hlen, decide_eq_false_iff_not]
    intro hEq
    have h2 : 2 * ((n : Int) - 1) ≤ s * ((n : Int) - 1) :=
      mul_le_mul_of_nonneg_right hs (by omega)
    omega
  have hround : ((n : Nat) : Int) =
      pyRound (((partMax ⟨u, defaultOptions, apList a s n⟩ -
        partMin ⟨u, defaultOptions, apList a s n⟩ : Int) : Rat) / (s : Rat)) + 1 := by
    rw [hmin, hmax]
    have hsub : (a + s * ((n : Int) - 1) - a : Int) = s * ((n : Int) - 1) := by ring
    rw [hsub]
    have hsne : ((s : Int) : Rat) ≠ 0 := by
      rw [ne_eq, Int.cast_eq_zero]
      omega
    have hdiv : ((s * ((n : Int) - 1) : Int) : Rat) / ((s : Int) : Rat) =
        ((((n : Int) - 1) : Int) : Rat) := by
      push_cast
      field_simp
    rw [hdiv, pyRound_intCast]
    omega
  by_cases hc : a = (u.min : Int) ∧ (u.max : Int) < a + s * ((n : Int) - 1) + s
  · have hfi : isFullInterval ⟨u, defaultOptions, apList a s n⟩ = true := by
      unfold isFullInterval
      rw [hstep]
      rw [decide_eq_true_eq]
      dsimp only
      refine ⟨by rw [hmin]; exact hc.1, by rw [hmax]; omega, ?_⟩
      rw [hlen]
      exact hround
    rw [if_pos hc]
    have ho3 : defaultOptions.output_hashes = false := rfl
    simp only [partStrChars, hfull, hint, hstep, hfi]
    simp [ho3]
  · have hfi : isFullInterval ⟨u, defaultOptions, apList a s n⟩ = false := by
      unfold isFullInterval
      rw [hstep]
      rw [decide_eq_false_iff_not]
      dsimp only
      rintro ⟨h1, h2, _⟩
      rw [hmin] at h1
      rw [hmax] at h2
      exact hc ⟨h1, by omega⟩
    rw [if_neg hc]
    have ho1 : defaultOptions.output_weekday_names = false := rfl
    have ho2 : defaultOptions.output_month_names = false := rfl
    have ho3 : defaultOptions.output_hashes = false := rfl
    simp only [partStrChars, hfull, hint, hstep, hfi]
    simp [filler, ho1, ho2, ho3, hmin, hmax]

/-- Witness for C4 at the minute progression `0, 5, ..., 55` (step 5,
twelve elements): the full-interval branch fires and emits `*/5`. -/
theorem c4_interval_serialization_witness :
    partStrChars ⟨minuteUnit, defaultOptions, apList 0 5 12⟩ =
      (if (0 : Int) = (minuteUnit.min : Int) ∧
          (minuteUnit.max : Int) < 0 + 5 * ((12 : Int) - 1) + 5
       then '*' :: '/' :: intToChars 5
       else intToChars 0 ++ '-' :: intToChars (0 + 5 * ((12 : Int) - 1)) ++
         '/' :: intToChars 5) :=
  c4_interval_serialization minuteUnit 0 5 12 (by norm_num) (by norm_num)
    (by norm_num [minuteUnit]) (by norm_num [minuteUnit])

/-- C4 counterexample: the two-element arithmetic progression `[0, 30]` in
the minute field serializes as the comma-joined `"0,30"`, not as an
interval form (`step` requires MORE than two elements, and a unit step is
also excluded). -/
theorem c4_cex_two_element_progression :
    partStrChars ⟨minuteUnit, defaultOptions, [0, 30]⟩ = "0,30".data ∧
    "0,30".data ≠ "0-30/30".data ∧ "0,30".data ≠ "*/30".data := by
  refine ⟨rfl, ?_, ?_⟩ <;> decide

/-! ## Date arithmetic lemmas -/

theorem daysInMonth_bounds (y : Int) (m : Nat) : 28 ≤ daysInMonth y m ∧ daysInMonth y m ≤ 31 := by
  unfold daysInMonth
  split_ifs <;> omega

theorem incMinute_spec {d : DateTime} (h : ValidDate d) :
    ValidDate (incMinute d) ∧ minuteIdx d < minuteIdx (incMinute d) ∧
      (incMinute d).second = d.second ∧ (incMinute d).micro = d.micro := by
  obtain ⟨Y, MO, D, H, MI, S, US⟩ := d
  obtain ⟨h1, h2, h3, h4, h5, h6, h7, h8⟩ := h
  have hb1 := daysInMonth_bounds Y MO
  have hb2 := daysInMonth_bounds Y (MO + 1)
  have hb3 := daysInMonth_bounds (Y + 1) 1
  simp only [ValidDate, minuteIdx, incMinute, incHourC, incDayC, incMonthC] at *
  split_ifs <;> simp_all <;> omega

theorem incHourC_spec {d : DateTime} (h : ValidDate d) :
    ValidDate (incHourC d) ∧ hourIdx d < hourIdx (incHourC d) ∧
      (incHourC d).minute = d.minute ∧ (incHourC d).second = d.second ∧
      (incHourC d).micro = d.micro := by
  obtain ⟨Y, MO, D, H, MI, S, US⟩ := d
  obtain ⟨h1, h2, h3, h4, h5, h6, h7, h8⟩ := h
  have hb1 := daysInMonth_bounds Y MO
  have hb2 := daysInMonth_bounds Y (MO + 1)
  have hb3 := daysInMonth_bounds (Y + 1) 1
  simp only [ValidDate, hourIdx, incHourC, incDayC, incMonthC] at *
  split_ifs <;> simp_all <;> omega

theorem incDayC_spec {d : DateTime} (h : ValidDate d) :
    ValidDate (incDayC d) ∧ dayIdx d < dayIdx (incDayC d) ∧
      (incDayC d).hour = d.hour ∧ (incDayC d).minute = d.minute ∧
      (incDayC d).second = d.second ∧ (incDayC d).micro = d.micro := by
  obtain ⟨Y, MO, D, H, MI, S, US⟩ := d
  obtain ⟨h1, h2, h3, h4, h5, h6, h7, h8⟩ := h
  have hb1 := daysInMonth_bounds Y MO
  have hb2 := daysInMonth_bounds Y (MO + 1)
  have hb3 := daysInMonth_bounds (Y + 1) 1
  simp only [ValidDate, dayIdx, incDayC, incMonthC] at *
  split_ifs <;> simp_all <;> omega

theorem incMonthC_spec {d : DateTime} (h : ValidDate d) :
    monthIdx d < monthIdx (incMonthC d) ∧ 1 ≤ (incMonthC d).month ∧
      (incMonthC d).month ≤ 12 ∧ (incMonthC d).day = d.day ∧
      (incMonthC d).hour = d.hour ∧ (incMonthC d).minute = d.minute ∧
      (incMonthC d).second = d.second ∧ (incMonthC d).micro = d.micro := by
  obtain ⟨Y, MO, D, H, MI, S, US⟩ := d
  obtain ⟨h1, h2, h3, h4, h5, h6, h7, h8⟩ := h
  simp only [ValidDate, monthIdx, incMonthC] at *
  split_ifs <;> simp_all <;> omega

theorem decMinute_valid {d : DateTime} (h : ValidDate d) : ValidDate (decMinute d) := by
  obtain ⟨Y, MO, D, H, MI, S, US⟩ := d
  obtain ⟨h1, h2, h3, h4, h5, h6, h7, h8⟩ := h
  have hb1 := daysInMonth_bounds Y MO
  have hb2 := daysInMonth_bounds Y (MO - 1)
  have hb3 := daysInMonth_bounds (Y - 1) 12
  simp only [ValidDate, decMinute, decHourC, decDayC, decMonthC] at *
  split_ifs <;> simp_all <;> omega

theorem dateKey_decomp (d : DateTime) :
    dateKey d = d.micro + 1000000 * d.second + 60000000 * minuteIdx d := by
  unfold dateKey minuteIdx
  ring

theorem dateKey_decomp_hour (d : DateTime) :
    dateKey d = d.micro + 1000000 * d.second + 60000000 * d.minute +
      3600000000 * hourIdx d := by
  unfold dateKey hourIdx
  ring

theorem dateKey_decomp_day (d : DateTime) :
    dateKey d = d.micro + 1000000 * d.second + 60000000 * d.minute +
      3600000000 * d.hour + 86400000000 * dayIdx d := by
  unfold dateKey dayIdx
  ring

theorem dateKey_decomp_month (d : DateTime) :
    dateKey d = d.micro + 1000000 * d.second + 60000000 * d.minute +
      3600000000 * d.hour + 86400000000 * d.day + 2764800000000 * monthIdx d := by
  unfold dateKey monthIdx
  ring

theorem stepDate_valid (mode : Mode) (rev : Bool) {d : DateTime} (h : ValidDate d) :
    ValidDate (stepDate mode rev d) := by
  obtain ⟨Y, MO, D, H, MI, S, US⟩ := d
  obtain ⟨h1, h2, h3, h4, h5, h6, h7, h8⟩ := h
  have hb1 := daysInMonth_bounds Y MO
  have hb2 := daysInMonth_bounds Y (MO + 1)
  have hb3 := daysInMonth_bounds (Y + 1) 1
  have hb4 := daysInMonth_bounds Y (MO - 1)
  have hb5 := daysInMonth_bounds (Y - 1) 12
  cases mode <;> cases rev <;>
    simp only [ValidDate, stepDate, incMinute, incHourC, incDayC, incMonthC,
      decMinute, decHourC, decDayC, decMonthC] at * <;>
    split_ifs <;> simp_all <;> omega

theorem stepDate_minute_key {d : DateTime} (h : ValidDate d) :
    dateKey d < dateKey (stepDate Mode.minute false d) := by
  obtain ⟨hv, hlt, hs, hu⟩ := incMinute_spec h
  have e1 : dateKey (stepDate Mode.minute false d) = 60000000 * minuteIdx (incMinute d) := by
    unfold stepDate dateKey minuteIdx
    dsimp only
    ring
  have e2 := dateKey_decomp d
  obtain ⟨_, _, _, _, _, _, h7, h8⟩ := h
  omega

theorem stepDate_hour_key {d : DateTime} (h : ValidDate d) :
    dateKey d < dateKey (stepDate Mode.hour false d) := by
  obtain ⟨hv, hlt, hrest⟩ := incHourC_spec h
  have e1 : dateKey (stepDate Mode.hour false d) = 3600000000 * hourIdx (incHourC d) := by
    unfold stepDate dateKey hourIdx
    dsimp only
    ring
  have e2 := dateKey_decomp_hour d
  obtain ⟨_, _, _, _, _, h6, h7, h8⟩ := h
  omega

theorem stepDate_day_key {d : DateTime} (h : ValidDate d) :
    dateKey d < dateKey (stepDate Mode.day false d) := by
  obtain ⟨hv, hlt, hrest⟩ := incDayC_spec h
  have e1 : dateKey (stepDate Mode.day false d) = 86400000000 * dayIdx (incDayC d) := by
    unfold stepDate dateKey dayIdx
    dsimp only
    ring
  have e2 := dateKey_decomp_day d
  obtain ⟨_, _, _, _, h5, h6, h7, h8⟩ := h
  omega

theorem stepDate_month_key {d : DateTime} (h : ValidDate d) :
    dateKey d < dateKey (stepDate Mode.month false d) := by
  obtain ⟨hlt, hrest⟩ := incMonthC_spec h
  have e1 : dateKey (stepDate Mode.month false d) =
      86400000000 + 2764800000000 * monthIdx (incMonthC d) := by
    unfold stepDate dateKey monthIdx
    dsimp only
    ring
  have e2 := dateKey_decomp_month d
  have hb := daysInMonth_bounds d.year d.month
  obtain ⟨_, _, _, h4, h5, h6, h7, h8⟩ := h
  omega

theorem stepDate_key_lt (mode : Mode) {d : DateTime} (h : ValidDate d) :
    dateKey d < dateKey (stepDate mode false d) := by
  cases mode
  · exact stepDate_month_key h
  · exact stepDate_day_key h
  · exact stepDate_hour_key h
  · exact stepDate_minute_key h

theorem stepDate_measure_lt (mode : Mode) (rev : Bool) {d : DateTime} (h : ValidDate d)
    (hp : parentValue (stepDate mode rev d) mode = parentValue d mode) :
    shiftMeasure mode rev (stepDate mode rev d) < shiftMeasure mode rev d := by
  obtain ⟨Y, MO, D, H, MI, S, US⟩ := d
  obtain ⟨h1, h2, h3, h4, h5, h6, h7, h8⟩ := h
  have hb1 := daysInMonth_bounds Y MO
  have hb2 := daysInMonth_bounds Y (MO + 1)
  have hb3 := daysInMonth_bounds (Y + 1) 1
  have hb4 := daysInMonth_bounds Y (MO - 1)
  have hb5 := daysInMonth_bounds (Y - 1) 12
  cases mode <;> cases rev <;>
    simp only [parentValue, shiftMeasure, stepDate, incMinute, incHourC, incDayC,
      incMonthC, decMinute, decHourC, decDayC, decMonthC] at * <;>
    split_ifs at hp ⊢ <;> simp_all <;> omega

theorem stepDate_coarse (mode : Mode) (rev : Bool) {d : DateTime} (h : ValidDate d)
    (hp : parentValue (stepDate mode rev d) mode = parentValue d mode) :
    modeCoarseEq mode (stepDate mode rev d) d := by
  obtain ⟨Y, MO, D, H, MI, S, US⟩ := d
  obtain ⟨h1, h2, h3, h4, h5, h6, h7, h8⟩ := h
  have hb1 := daysInMonth_bounds Y MO
  have hb4 := daysInMonth_bounds Y (MO - 1)
  have hb5 := daysInMonth_bounds (Y - 1) 12
  cases mode <;> cases rev <;>
    simp only [parentValue, modeCoarseEq, stepDate, incMinute, incHourC, incDayC,
      incMonthC, decMinute, decHourC, decDayC, decMonthC] at * <;>
    split_ifs at hp ⊢ <;> simp_all <;> omega

theorem truncSec_key (d : DateTime) :
    dateKey (truncSec d) = 60000000 * minuteIdx d := by
  unfold truncSec dateKey minuteIdx
  simp
  ring

theorem truncSec_fields (d : DateTime) :
    (truncSec d).year = d.year ∧ (truncSec d).month = d.month ∧
      (truncSec d).day = d.day ∧ (truncSec d).hour = d.hour ∧
      (truncSec d).minute = d.minute ∧ (truncSec d).second = 0 ∧
      (truncSec d).micro = 0 := by
  unfold truncSec
  exact ⟨rfl, rfl, rfl, rfl, rfl, rfl, rfl⟩

theorem minuteIdx_mono_of_key {a b : DateTime} (hb : ValidDate b)
    (h : dateKey a ≤ dateKey b) : minuteIdx a ≤ minuteIdx b := by
  by_contra hc
  obtain ⟨_, _, _, _, _, _, h7, h8⟩ := hb
  have ha := dateKey_decomp a
  have hbk := dateKey_decomp b
  omega

/-! ## The shift loop -/

theorem modeCoarseEq_refl (mode : Mode) (d : DateTime) : modeCoarseEq mode d d := by
  cases mode <;> simp [modeCoarseEq]

theorem modeCoarseEq_trans {mode : Mode} {a b c : DateTime}
    (h1 : modeCoarseEq mode a b) (h2 : modeCoarseEq mode b c) :
    modeCoarseEq mode a c := by
  cases mode <;> simp only [modeCoarseEq] at * <;> omega

theorem shiftMeasure_lt_64 (mode : Mode) (rev : Bool) {d : DateTime} (h : ValidDate d) :
    shiftMeasure mode rev d < 64 := by
  obtain ⟨Y, MO, D, H, MI, S, US⟩ := d
  obtain ⟨h1, h2, h3, h4, h5, h6, h7, h8⟩ := h
  have hb1 := daysInMonth_bounds Y MO
  cases mode <;> cases rev <;> simp only [shiftMeasure] at * <;> omega

theorem shiftDateAux_isSome {c : CronJob} {mode : Mode} {rev : Bool} {cur : Int}
    {fuel : Nat} {d : DateTime} (h : ValidDate d) (hcur : parentValue d mode = cur)
    (hfuel : shiftMeasure mode rev d < fuel) :
    (shiftDateAux c mode rev cur fuel d).isSome = true := by
  induction fuel generalizing d with
  | zero => omega
  | succ f ih =>
    simp only [shiftDateAux]
    by_cases hm : shiftMismatch c mode d = true
    · rw [if_pos hm]
      by_cases hpar : parentValue (stepDate mode rev d) mode ≠ cur
      · rw [if_pos hpar]
        simp
      · rw [if_neg hpar]
        push_neg at hpar
        apply ih (stepDate_valid mode rev h) hpar
        have := stepDate_measure_lt mode rev h (by rw [hpar, hcur])
        omega
    · rw [if_neg hm]
      simp

theorem shiftDateAux_some_spec {c : CronJob} {mode : Mode} {rev : Bool} {cur : Int}
    {fuel : Nat} {d d2 : DateTime} {b : Bool} (h : ValidDate d)
    (hs : shiftDateAux c mode rev cur fuel d = some (d2, b)) :
    ValidDate d2 ∧ (rev = false → dateKey d ≤ dateKey d2) := by
  induction fuel generalizing d with
  | zero => simp [shiftDateAux] at hs
  | succ f ih =>
    simp only [shiftDateAux] at hs
    by_cases hm : shiftMismatch c mode d = true
    · rw [if_pos hm] at hs
      by_cases hpar : parentValue (stepDate mode rev d) mode ≠ cur
      · rw [if_pos hpar] at hs
        simp only [Option.some.injEq, Prod.mk.injEq] at hs
        obtain ⟨hd2, _⟩ := hs
        subst hd2
        refine ⟨stepDate_valid mode rev h, ?_⟩
        rintro rfl
        exact le_of_lt (stepDate_key_lt mode h)
      · rw [if_neg hpar] at hs
        have hrec := ih (stepDate_valid mode rev h) hs
        refine ⟨hrec.1, ?_⟩
        rintro rfl
        exact le_trans (le_of_lt (stepDate_key_lt mode h)) (hrec.2 rfl)
    · rw [if_neg hm] at hs
      simp only [Option.some.injEq, Prod.mk.injEq] at hs
      obtain ⟨hd2, _⟩ := hs
      subst hd2
      exact ⟨h, fun _ => le_refl _⟩

theorem shiftDateAux_false_spec {c : CronJob} {mode : Mode} {rev : Bool} {cur : Int}
    {fuel : Nat} {d d2 : DateTime} (hmode : mode ≠ Mode.month) (h : ValidDate d)
    (hcur : parentValue d mode = cur)
    (hs : shiftDateAux c mode rev cur fuel d = some (d2, false)) :
    shiftMismatch c mode d2 = false ∧ parentValue d2 mode = cur ∧
      modeCoarseEq mode d2 d := by
  induction fuel generalizing d with
  | zero => simp [shiftDateAux] at hs
  | succ f ih =>
    simp only [shiftDateAux] at hs
    by_cases hm : shiftMismatch c mode d = true
    · rw [if_pos hm] at hs
      by_cases hpar : parentValue (stepDate mode rev d) mode ≠ cur
      · rw [if_pos hpar] at hs
        rw [decide_eq_true hmode] at hs
        simp at hs
      · rw [if_neg hpar] at hs
        push_neg at hpar
        have hrec := ih (stepDate_valid mode rev h) hpar hs
        exact ⟨hrec.1, hrec.2.1,
          modeCoarseEq_trans hrec.2.2 (stepDate_coarse mode rev h (by rw [hpar, hcur]))⟩
    · rw [if_neg hm] at hs
      simp only [Option.some.injEq, Prod.mk.injEq] at hs
      obtain ⟨hd2, _⟩ := hs
      subst hd2
      exact ⟨Bool.not_eq_true _ ▸ hm, hcur, modeCoarseEq_refl mode d⟩

theorem shiftDate_isSome {c : CronJob} (mode : Mode) (rev : Bool) {d : DateTime}
    (h : ValidDate d) : (shiftDate c mode rev d).isSome = true :=
  shiftDateAux_isSome h rfl (lt_of_lt_of_le (shiftMeasure_lt_64 mode rev h) (le_refl 64))

theorem mem_of_not_mismatch {c : CronJob} {mode : Mode} {d : DateTime}
    (h : shiftMismatch c mode d = false) :
    (modeValue d mode : Int) ∈ modeSet c mode := by
  unfold shiftMismatch at h
  simp only [decide_eq_false_iff_not, not_or, not_and, not_not] at h
  exact h.1

theorem day_wd_of_not_mismatch {c : CronJob} {d : DateTime}
    (h : shiftMismatch c Mode.day d = false) :
    weekdayOf d.year d.month d.day ∈ (jobDow c).values := by
  unfold shiftMismatch at h
  simp only [decide_eq_false_iff_not, not_or, not_and, not_not] at h
  exact h.2 trivial

theorem shiftMismatch_day_congr {c : CronJob} {a b : DateTime}
    (hy : a.year = b.year) (hm : a.month = b.month) (hd : a.day = b.day) :
    shiftMismatch c Mode.day a = shiftMismatch c Mode.day b := by
  unfold shiftMismatch modeValue
  rw [hy, hm, hd]

theorem shiftMismatch_hour_congr {c : CronJob} {a b : DateTime}
    (hh : a.hour = b.hour) :
    shiftMismatch c Mode.hour a = shiftMismatch c Mode.hour b := by
  unfold shiftMismatch modeValue
  simp only [decide_eq_decide]
  rw [hh]
  simp

/-! ## The four-level pass and `find_date` -/

theorem onePass_isSome {c : CronJob} {rev : Bool} {d : DateTime} (h : ValidDate d) :
    (onePass c rev d).isSome = true := by
  unfold onePass
  rcases h1 : shiftDate c .month rev d with _ | ⟨d1, b1⟩
  · have hs := shiftDate_isSome (c := c) Mode.month rev h
    rw [h1] at hs
    simp at hs
  · have hv1 := (shiftDateAux_some_spec h h1).1
    cases b1
    · rcases h2 : shiftDate c .day rev d1 with _ | ⟨d2, b2⟩
      · have hs := shiftDate_isSome (c := c) Mode.day rev hv1
        rw [h2] at hs
        simp at hs
      · have hv2 := (shiftDateAux_some_spec hv1 h2).1
        cases b2
        · rcases h3 : shiftDate c .hour rev d2 with _ | ⟨d3, b3⟩
          · have hs := shiftDate_isSome (c := c) Mode.hour rev hv2
            rw [h3] at hs
            simp at hs
          · have hv3 := (shiftDateAux_some_spec hv2 h3).1
            cases b3
            · rcases h4 : shiftDate c .minute rev d3 with _ | ⟨d4, b4⟩
              · have hs := shiftDate_isSome (c := c) Mode.minute rev hv3
                rw [h4] at hs
                simp at hs
              · cases b4 <;> simp [h1, h2, h3, h4]
            · simp [h1, h2, h3]
        · simp [h1, h2]
    · simp [h1]

theorem onePass_some_spec {c : CronJob} {rev : Bool} {d dx : DateTime} {flag : Bool}
    (h : ValidDate d) (hp : onePass c rev d = some (dx, flag)) :
    ValidDate dx ∧ (rev = false → dateKey d ≤ dateKey dx) := by
  unfold onePass at hp
  rcases h1 : shiftDate c .month rev d with _ | ⟨d1, b1⟩
  · rw [h1] at hp
    exact Option.noConfusion hp
  · have s1 := shiftDateAux_some_spec h h1
    cases b1
    · rcases h2 : shiftDate c .day rev d1 with _ | ⟨d2, b2⟩
      · simp only [h1, h2] at hp
        exact Option.noConfusion hp
      · have s2 := shiftDateAux_some_spec s1.1 h2
        cases b2
        · rcases h3 : shiftDate c .hour rev d2 with _ | ⟨d3, b3⟩
          · simp only [h1, h2, h3] at hp
            exact Option.noConfusion hp
          · have s3 := shiftDateAux_some_spec s2.1 h3
            cases b3
            · rcases h4 : shiftDate c .minute rev d3 with _ | ⟨d4, b4⟩
              · simp only [h1, h2, h3, h4] at hp
                exact Option.noConfusion hp
              · have s4 := shiftDateAux_some_spec s3.1 h4
                have hdx : dx = d4 := by
                  cases b4 <;> simp only [h1, h2, h3, h4, Option.some.injEq,
                    Prod.mk.injEq] at hp <;> exact hp.1.symm
                subst hdx
                exact ⟨s4.1, fun hrev => le_trans (s1.2 hrev)
                  (le_trans (s2.2 hrev) (le_trans (s3.2 hrev) (s4.2 hrev)))⟩
            · simp only [h1, h2, h3, Option.some.injEq, Prod.mk.injEq] at hp
              obtain ⟨he, _⟩ := hp
              subst he
              exact ⟨s3.1, fun hrev => le_trans (s1.2 hrev)
                (le_trans (s2.2 hrev) (s3.2 hrev))⟩
        · simp only [h1, h2, Option.some.injEq, Prod.mk.injEq] at hp
          obtain ⟨he, _⟩ := hp
          subst he
          exact ⟨s2.1, fun hrev => le_trans (s1.2 hrev) (s2.2 hrev)⟩
    · simp only [h1, Option.some.injEq, Prod.mk.injEq] at hp
      obtain ⟨he, _⟩ := hp
      subst he
      exact s1

theorem onePass_true_spec {c : CronJob} {rev : Bool} {d dT : DateTime}
    (h : ValidDate d) (hp : onePass c rev d = some (dT, true)) :
    shiftMismatch c Mode.day dT = false ∧ shiftMismatch c Mode.hour dT = false ∧
      shiftMismatch c Mode.minute dT = false := by
  unfold onePass at hp
  rcases h1 : shiftDate c .month rev d with _ | ⟨d1, b1⟩
  · rw [h1] at hp
    exact Option.noConfusion hp
  · have s1 := shiftDateAux_some_spec h h1
    cases b1
    · rcases h2 : shiftDate c .day rev d1 with _ | ⟨d2, b2⟩
      · simp only [h1, h2] at hp
        exact Option.noConfusion hp
      · have s2 := shiftDateAux_some_spec s1.1 h2
        cases b2
        · rcases h3 : shiftDate c .hour rev d2 with _ | ⟨d3, b3⟩
          · simp only [h1, h2, h3] at hp
            exact Option.noConfusion hp
          · have s3 := shiftDateAux_some_spec s2.1 h3
            cases b3
            · rcases h4 : shiftDate c .minute rev d3 with _ | ⟨d4, b4⟩
              · simp only [h1, h2, h3, h4] at hp
                exact Option.noConfusion hp
              · cases b4
                · simp only [h1, h2, h3, h4, Option.some.injEq, Prod.mk.injEq] at hp
                  obtain ⟨he, _⟩ := hp
                  subst he
                  obtain ⟨hd2m, hd2p, hd2c⟩ :=
                    shiftDateAux_false_spec (by simp) s1.1 rfl h2
                  obtain ⟨hd3m, hd3p, hd3c⟩ :=
                    shiftDateAux_false_spec (by simp) s2.1 rfl h3
                  obtain ⟨hd4m, hd4p, hd4c⟩ :=
                    shiftDateAux_false_spec (by simp) s3.1 rfl h4
                  obtain ⟨hy3, hm3⟩ := hd3c
                  obtain ⟨hy4, hm4, hd4⟩ := hd4c
                  have hday3 : d3.day = d2.day := by
                    simp only [parentValue] at hd3p
                    omega
                  have hhour4 : d4.hour = d3.hour := by
                    simp only [parentValue] at hd4p
                    omega
                  refine ⟨?_, ?_, hd4m⟩
                  · rw [shiftMismatch_day_congr (hy4.trans hy3)
                      (hm4.trans hm3) (hd4.trans hday3)]
                    exact hd2m
                  · rw [shiftMismatch_hour_congr hhour4]
                    exact hd3m
                · simp only [h1, h2, h3, h4, Option.some.injEq, Prod.mk.injEq] at hp
                  simp at hp
            · simp only [h1, h2, h3, Option.some.injEq, Prod.mk.injEq] at hp
              simp at hp
        · simp only [h1, h2, Option.some.injEq, Prod.mk.injEq] at hp
          simp at hp
    · simp only [h1, Option.some.injEq, Prod.mk.injEq] at hp
      simp at hp

theorem findDateAux_error {c : CronJob} {rev : Bool} {fuel : Nat} {d : DateTime}
    {e : PyErr} (h : ValidDate d) (hf : findDateAux c rev fuel d = .error e) :
    e = PyErr.recursionError := by
  induction fuel generalizing d with
  | zero =>
    simp only [findDateAux, Except.error.injEq] at hf
    exact hf.symm
  | succ f ih =>
    simp only [findDateAux] at hf
    rcases hop : onePass c rev d with _ | ⟨d2, flag⟩
    · have hs := @onePass_isSome c rev d h
      rw [hop] at hs
      simp at hs
    · cases flag
      · simp only [hop] at hf
        exact ih (onePass_some_spec h hop).1 hf
      · simp only [hop] at hf
        exact Except.noConfusion hf

theorem findDateAux_ok {c : CronJob} {rev : Bool} {fuel : Nat} {d dR : DateTime}
    (h : ValidDate d) (hf : findDateAux c rev fuel d = .ok dR) :
    ValidDate dR ∧ (rev = false → dateKey d ≤ dateKey dR) ∧
      shiftMismatch c Mode.day dR = false ∧ shiftMismatch c Mode.hour dR = false ∧
      shiftMismatch c Mode.minute dR = false := by
  induction fuel generalizing d with
  | zero => simp [findDateAux] at hf
  | succ f ih =>
    simp only [findDateAux] at hf
    rcases hop : onePass c rev d with _ | ⟨d2, flag⟩
    · have hs := @onePass_isSome c rev d h
      rw [hop] at hs
      simp at hs
    · cases flag
      · simp only [hop] at hf
        have hs := onePass_some_spec h hop
        have hrec := ih hs.1 hf
        exact ⟨hrec.1, fun hrev => le_trans (hs.2 hrev) (hrec.2.1 hrev), hrec.2.2⟩
      · simp only [hop, Except.ok.injEq] at hf
        subst hf
        have hm := onePass_true_spec h hop
        have hs := onePass_some_spec h hop
        exact ⟨hs.1, hs.2, hm⟩

set_option maxHeartbeats 1000000 in
/-- C2 (amended): on any valid cursor instant, the matching search
`find_date` performs at most 25 four-level passes (the embedding's
only outcomes are the 25-pass `RecursionError` or success — inner-loop
fuel exhaustion is impossible); on success the value the Python method
returns (the cursor truncated to second/microsecond 0) has its minute and
hour in the expression's sets and its day passing both the day-of-month
and day-of-week filters.  Membership of the MONTH is NOT guaranteed (the
claim asserts it, but the month scan returns without a restart after
rolling into a new year — see the counterexample — so the month conjunct
must be dropped), and an expression with no matching instant may therefore
produce a spurious result instead of `NonConvergence`. -/
theorem c2_find_date_bounded (c : CronJob) (reverse : Bool) (d : DateTime)
    (h : ValidDate d) :
    findDate c reverse d = .error .recursionError ∨
    ∃ d2, findDate c reverse d = .ok d2 ∧
      ((truncSec d2).minute : Int) ∈ (jobMinute c).values ∧
      ((truncSec d2).hour : Int) ∈ (jobHour c).values ∧
      ((truncSec d2).day : Int) ∈ (jobDay c).values ∧
      weekdayOf (truncSec d2).year (truncSec d2).month (truncSec d2).day ∈
        (jobDow c).values ∧
      (truncSec d2).second = 0 ∧ (truncSec d2).micro = 0 := by
  rcases hf : findDate c reverse d with e | d2
  · left
    rw [findDateAux_error h hf]
  · right
    have hr := findDateAux_ok h hf
    obtain ⟨_, _, hday, hhour, hminute⟩ := hr
    refine ⟨d2, rfl, ?_, ?_, ?_, ?_, rfl, rfl⟩
    · exact mem_of_not_mismatch hminute
    · exact mem_of_not_mismatch hhour
    · exact mem_of_not_mismatch hday
    · exact day_wd_of_not_mismatch hday

/-- Witness for C2 at the all-wildcard expression and a concrete valid
start: the search succeeds and the returned instant satisfies every
membership. -/
theorem c2_find_date_bounded_witness :
    ValidDate ⟨2024, 1, 1, 0, 0, 0, 0⟩ ∧
    (findDate c8Job false ⟨2024, 1, 1, 0, 0, 0, 0⟩ = .error .recursionError ∨
    ∃ d2, findDate c8Job false ⟨2024, 1, 1, 0, 0, 0, 0⟩ = .ok d2 ∧
      ((truncSec d2).minute : Int) ∈ (jobMinute c8Job).values ∧
      ((truncSec d2).hour : Int) ∈ (jobHour c8Job).values ∧
      ((truncSec d2).day : Int) ∈ (jobDay c8Job).values ∧
      weekdayOf (truncSec d2).year (truncSec d2).month (truncSec d2).day ∈
        (jobDow c8Job).values ∧
      (truncSec d2).second = 0 ∧ (truncSec d2).micro = 0) :=
  ⟨by decide, c2_find_date_bounded c8Job false ⟨2024, 1, 1, 0, 0, 0, 0⟩ (by decide)⟩

/-- C8 (amended): construction stores the start with the minute advanced
by one when its seconds are nonzero (seconds and microseconds are kept on
the cursor, not truncated); and the first `next` value is never earlier
than the true start provided the start has zero microseconds or nonzero
seconds (with nonzero microseconds and zero seconds it can be one
truncation earlier — see the counterexample). -/
theorem c8_runner_init_and_first_next (c : CronJob) (start : DateTime)
    (h : ValidDate start) :
    (runnerInit c start).date = (if 0 < start.second then incMinute start else start) ∧
    ∀ dR r2, (start.micro = 0 ∨ 0 < start.second) →
      runnerNext (runnerInit c start) = .ok (dR, r2) → dateKey start ≤ dateKey dR := by
  refine ⟨rfl, ?_⟩
  intro dR r2 hcase hnext
  have hrw : runnerNext (runnerInit c start) =
      (match findDate c false (if 0 < start.second then incMinute start else start) with
       | .error e => .error e
       | .ok d2 => .ok (truncSec d2,
           ⟨c, d2, (if 0 < start.second then incMinute start else start), false⟩)) := rfl
  rw [hrw] at hnext
  rcases hf : findDate c false (if 0 < start.second then incMinute start else start)
    with e | d4
  · rw [hf] at hnext
    exact Except.noConfusion hnext
  · simp only [hf, Except.ok.injEq, Prod.mk.injEq] at hnext
    obtain ⟨hdR, _⟩ := hnext
    subst hdR
    have hv0 : ValidDate (if 0 < start.second then incMinute start else start) := by
      split_ifs
      · exact (incMinute_spec h).1
      · exact h
    have hr := findDateAux_ok hv0 hf
    have hkey : dateKey (if 0 < start.second then incMinute start else start) ≤
        dateKey d4 := hr.2.1 rfl
    have hmi := minuteIdx_mono_of_key hr.1 hkey
    have hkR := truncSec_key d4
    have hds := dateKey_decomp start
    have h7 : start.second ≤ 59 := h.2.2.2.2.2.2.1
    have h8 : start.micro ≤ 999999 := h.2.2.2.2.2.2.2
    by_cases hsec : 0 < start.second
    · rw [if_pos hsec] at hmi
      have hinc := (incMinute_spec h).2.1
      omega
    · rw [if_neg hsec] at hmi
      have hmicro : start.micro = 0 := by
        rcases hcase with hm | hs
        · exact hm
        · omega
      omega

/-- Witness for C8 at the all-wildcard expression and start
2024-01-01T12:00:30: the first `next` value 12:01:00 is not earlier than
the start. -/
theorem c8_runner_init_and_first_next_witness :
    dateKey ⟨2024, 1, 1, 12, 0, 30, 0⟩ ≤ dateKey ⟨2024, 1, 1, 12, 1, 0, 0⟩ :=
  (c8_runner_init_and_first_next c8Job ⟨2024, 1, 1, 12, 0, 30, 0⟩ (by decide)).2
    ⟨2024, 1, 1, 12, 1, 0, 0⟩
    ⟨c8Job, ⟨2024, 1, 1, 12, 1, 30, 0⟩, ⟨2024, 1, 1, 12, 1, 30, 0⟩, false⟩
    (Or.inr (by decide)) (by rfl)

/-! ## Serialized-character lemmas (towards the C1 round trip) -/

theorem digitChar_mem_serial {n : Nat} (h : n < 10) : Nat.digitChar n ∈ serialChars := by
  interval_cases n <;> decide

theorem natToCharsAux_mem_serial {fuel n : Nat} (h : n < fuel) :
    ∀ c ∈ natToCharsAux fuel n, c ∈ serialChars := by
  induction fuel generalizing n with
  | zero => omega
  | succ f ih =>
    simp only [natToCharsAux]
    split
    · intro c hc
      rcases List.mem_singleton.mp hc with rfl
      exact digitChar_mem_serial (by omega)
    · rename_i h10
      intro c hc
      rcases List.mem_append.mp hc with h1 | h1
      · exact ih (by omega) c h1
      · rcases List.mem_singleton.mp h1 with rfl
        exact digitChar_mem_serial (Nat.mod_lt _ (by omega))

theorem natToChars_mem_serial (n : Nat) : ∀ c ∈ natToChars n, c ∈ serialChars :=
  natToCharsAux_mem_serial (Nat.lt_succ_self n)

theorem intToChars_mem_serial (v : Int) : ∀ c ∈ intToChars v, c ∈ serialChars := by
  unfold intToChars
  split
  · intro c hc
    rcases List.mem_cons.mp hc with rfl | h1
    · decide
    · exact natToChars_mem_serial _ c h1
  · exact natToChars_mem_serial _

theorem serial_toUpper : ∀ c ∈ serialChars, c.toUpper = c := by decide

theorem serial_not_ws : ∀ c ∈ serialChars, isPyWs c = false := by decide

theorem upperChars_id {l : List Char} (h : ∀ c ∈ l, c ∈ serialChars) :
    upperChars l = l := by
  induction l with
  | nil => rfl
  | cons c l ih =>
    have hc := serial_toUpper c (h c (List.mem_cons_self c l))
    have ht := ih (fun d hd => h d (List.mem_cons_of_mem c hd))
    show c.toUpper :: upperChars l = c :: l
    rw [hc, ht]

theorem isDigit_ne_slash {c : Char} (h : c.isDigit = true) : c ≠ '/' := by
  intro hc; subst hc; simp [Char.isDigit] at h

theorem isDigit_ne_comma {c : Char} (h : c.isDigit = true) : c ≠ ',' := by
  intro hc; subst hc; simp [Char.isDigit] at h

theorem isDigit_ne_star {c : Char} (h : c.isDigit = true) : c ≠ '*' := by
  intro hc; subst hc; simp [Char.isDigit] at h

theorem isDigit_ne_question {c : Char} (h : c.isDigit = true) : c ≠ '?' := by
  intro hc; subst hc; simp [Char.isDigit] at h

theorem natToChars_not_mem {n : Nat} {c : Char} (hc : c.isDigit = false) :
    c ∉ natToChars n := by
  intro h
  have h2 := natToChars_digits n c h
  rw [hc] at h2
  exact Bool.noConfusion h2

theorem replaceAlternativeAux_id {l : List Char} {alts : List String}
    (h : ∀ a ∈ alts, containsSub a.data l = false) :
    ∀ m i, replaceAlternativeAux m i alts l = l := by
  induction alts with
  | nil => intro m i; rfl
  | cons a alts ih =>
    intro m i
    show replaceAlternativeAux m (i + 1) alts
      (if containsSub a.data l then replaceSub a.data (natToChars (m + i)) l else l) = l
    rw [h a (List.mem_cons_self a alts), if_neg Bool.false_ne_true]
    exact ih (fun b hb => h b (List.mem_cons_of_mem a hb)) m (i + 1)

theorem replaceAlternative_id {u : CronUnit} {l : List Char}
    (hl : ∀ c ∈ l, c ∈ serialChars)
    (ha : ∀ a ∈ u.alt, headNotSerial a = true) :
    replaceAlternative u l = l := by
  unfold replaceAlternative
  apply replaceAlternativeAux_id
  intro a haa
  have h1 := ha a haa
  unfold headNotSerial at h1
  rcases hd : a.data with _ | ⟨c, t⟩
  · rw [hd] at h1
    exact Bool.noConfusion h1
  · rw [hd] at h1
    have hc : c ∉ serialChars := of_decide_eq_true h1
    exact containsSub_eq_false (fun hcl => hc (hl c hcl))

theorem fromStr_clean {u : CronUnit} {S : List Char}
    (hser : ∀ c ∈ S, c ∈ serialChars)
    (ha : ∀ a ∈ u.alt, headNotSerial a = true) :
    fromStr u S = fromStrTokens u (splitOnChar ',' S) := by
  unfold fromStr
  rw [upperChars_id hser, replaceAlternative_id hser ha]

theorem cronPartRaw_str {u : CronUnit} {S : List Char} (hne : S ≠ ['?']) :
    cronPartRaw u (.str (String.mk S)) = fromStr u S := by
  show (if String.mk S = "?" then Except.ok [] else fromStr u (String.mk S).data) =
    fromStr u S
  rw [if_neg (fun h => hne (congrArg String.data h))]

theorem mem_joinSep {P : Char → Prop} {sep : List Char}
    (hsep : ∀ c ∈ sep, P c) :
    ∀ ts : List (List Char), (∀ t ∈ ts, ∀ c ∈ t, P c) →
    ∀ c ∈ joinSep sep ts, P c
  | [], _, c, hc => absurd hc (List.not_mem_nil c)
  | [t], hts, c, hc => hts t (List.mem_singleton.mpr rfl) c hc
  | t :: t2 :: ts, hts, c, hc => by
    have h0 : c ∈ t ++ sep ++ joinSep sep (t2 :: ts) := hc
    rcases List.mem_append.mp h0 with h1 | h1
    · rcases List.mem_append.mp h1 with h2 | h2
      · exact hts t (List.mem_cons_self t _) c h2
      · exact hsep c h2
    · exact mem_joinSep hsep (t2 :: ts) (fun v hv => hts v (List.mem_cons_of_mem t hv)) c h1

/-! ## Range and progression lemmas (towards the C1 round trip) -/

theorem intRange_nil {a b : Int} (h : b < a) : intRange a b = [] := by
  unfold intRange
  have h1 : (b + 1 - a).toNat = 0 := by omega
  rw [h1]
  rfl

theorem intRange_cons {a b : Int} (h : a ≤ b) :
    intRange a b = a :: intRange (a + 1) b := by
  refine sorted_ext (intRange_sorted a b) ?_ ?_
  · rw [List.sorted_cons]
    refine ⟨fun v hv => ?_, intRange_sorted _ _⟩
    have := mem_intRange.mp hv
    omega
  · intro v
    rw [mem_intRange, List.mem_cons, mem_intRange]
    omega

theorem intRange_snoc_last {a b : Int} (h : a ≤ b) :
    intRange a b = intRange a (b - 1) ++ [b] := by
  have h2 := intRange_snoc (a := a) (b := b - 1) (by omega)
  have h3 : b - 1 + 1 = b := by omega
  rw [h3] at h2
  exact h2

theorem sorted_length_le {l : List Int} {a b : Int} (hab : a ≤ b + 1)
    (hs : List.Sorted (· < ·) l)
    (hb : ∀ v ∈ l, a ≤ v ∧ v ≤ b) : (l.length : Int) ≤ b - a + 1 := by
  induction l generalizing a with
  | nil => simp only [List.length_nil, Int.natCast_zero]; omega
  | cons v rest ih =>
    rw [List.sorted_cons] at hs
    have hv := hb v (List.mem_cons_self v rest)
    have h2 : (rest.length : Int) ≤ b - (v + 1) + 1 := by
      refine ih (by omega) hs.2 ?_
      intro w hw
      have h3 := hs.1 w hw
      have h4 := hb w (List.mem_cons_of_mem v hw)
      omega
    simp only [List.length_cons]
    push_cast
    omega

theorem sorted_eq_intRange {l : List Int} {a b : Int}
    (hs : List.Sorted (· < ·) l)
    (hb : ∀ v ∈ l, a ≤ v ∧ v ≤ b)
    (hl : (l.length : Int) = b - a + 1) : l = intRange a b := by
  induction l generalizing a with
  | nil =>
    simp only [List.length_nil, Int.natCast_zero] at hl
    exact (intRange_nil (by omega)).symm
  | cons v rest ih =>
    have hsc := List.sorted_cons.mp hs
    have hv := hb v (List.mem_cons_self v rest)
    have hva : v = a := by
      by_contra hne
      have hlen : ((v :: rest).length : Int) ≤ b - (a + 1) + 1 := by
        refine sorted_length_le (by omega) hs ?_
        intro w hw
        rcases List.mem_cons.mp hw with rfl | hw2
        · omega
        · have h3 := hsc.1 w hw2
          have h4 := hb w hw
          omega
      omega
    subst hva
    simp only [List.length_cons] at hl
    push_cast at hl
    have hrest : rest = intRange (v + 1) b := by
      refine ih hsc.2 ?_ ?_
      · intro w hw
        have h3 := hsc.1 w hw
        have h4 := hb w (List.mem_cons_of_mem v hw)
        omega
      · omega
    rw [hrest, ← intRange_cons (by omega)]

theorem gapsAllEq_eq_apList : ∀ {l : List Int} {s : Int}, gapsAllEq s l = true →
    l = apList (l.headD 0) s l.length
  | [], _, _ => rfl
  | [_], _, _ => rfl
  | v :: w :: rest, s, h => by
    have h2 : (w - v == s) = true ∧ gapsAllEq s (w :: rest) = true := by
      simpa [gapsAllEq] using h
    have hw : w = v + s := by
      have h3 := beq_iff_eq.mp h2.1
      omega
    have ih := gapsAllEq_eq_apList h2.2
    show v :: w :: rest = v :: apList (v + s) s (rest.length + 1)
    rw [← hw]
    exact congrArg (v :: ·) ih

theorem filter_intRange_ap {a b s : Int} {m : Nat} (hs : 1 ≤ s) (hm : 1 ≤ m)
    (hub : a + s * ((m : Int) - 1) ≤ b) (hlb : b < a + s * (m : Int)) :
    (intRange a b).filter (fun v => v % s == a % s || v == a) = apList a s m := by
  refine sorted_ext ((intRange_sorted a b).filter _) (apList_sorted a hs m) ?_
  intro v
  rw [List.mem_filter, mem_intRange, mem_apList]
  constructor
  · rintro ⟨⟨h1, h2⟩, h3⟩
    simp only [Bool.or_eq_true, beq_iff_eq] at h3
    have hdvd : s ∣ (v - a) := by
      rcases h3 with h3 | h3
      · exact Int.dvd_of_emod_eq_zero (Int.emod_eq_emod_iff_emod_sub_eq_zero.mp h3)
      · rw [h3]
        simp
    rcases hdvd with ⟨k, hk⟩
    have hks : 0 ≤ s * k := by omega
    have hk0 : 0 ≤ k := by
      by_contra hneg
      push_neg at hneg
      nlinarith
    have hkm : k < (m : Int) := lt_of_mul_lt_mul_left (by omega) (by omega : (0 : Int) ≤ s)
    refine ⟨k.toNat, by omega, ?_⟩
    have hcast : (k.toNat : Int) = k := by omega
    rw [hcast]
    omega
  · rintro ⟨i, him, rfl⟩
    have hi0 : (0 : Int) ≤ s * (i : Int) := mul_nonneg (by omega) (by omega)
    have hi1 : s * (i : Int) ≤ s * ((m : Int) - 1) :=
      mul_le_mul_of_nonneg_left (by omega) (by omega)
    refine ⟨⟨by omega, by omega⟩, ?_⟩
    simp [Int.add_mul_emod_self_left]

theorem interval_intRange {u : CronUnit} {A B s : Int} (hAB : A ≤ B) (hs : 1 ≤ s)
    {st : List Char} (hst : pyIntOfChars st = some s) :
    interval u (intRange A B) (some st) =
      .ok ((intRange A B).filter (fun v => v % s == A % s || v == A)) := by
  obtain ⟨t, ht⟩ : ∃ t, intRange A B = A :: t := ⟨intRange (A + 1) B, intRange_cons hAB⟩
  simp only [interval, hst]
  rw [if_neg (by omega : ¬ s < 1), ht]

/-- One step of the `CronPart.ranges` scan on a singleton (the sentinel
`next` is `-1`, so a nonnegative value always closes the run). -/
theorem rangesAux_one (o : Option Int) (v : Int) (hcond : v ≠ -2) :
    rangesAux o [v] =
      [(match o with | none => RangeItem.single v | some s => RangeItem.span s v)] := by
  show (if v ≠ (-1 : Int) - 1 then
      (match o with | none => RangeItem.single v | some s => RangeItem.span s v) ::
        rangesAux none []
    else match o with
      | none => rangesAux (some v) []
      | some _ => rangesAux o []) = _
  rw [if_pos (by omega : v ≠ (-1 : Int) - 1)]
  rfl

/-- One step of the `CronPart.ranges` scan when the run breaks at `v`. -/
theorem rangesAux_cons_break (o : Option Int) (v n : Int) (rest' : List Int)
    (hc : v ≠ n - 1) :
    rangesAux o (v :: n :: rest') =
      (match o with | none => RangeItem.single v | some s => RangeItem.span s v) ::
        rangesAux none (n :: rest') := by
  show (if v ≠ n - 1 then
      (match o with | none => RangeItem.single v | some s => RangeItem.span s v) ::
        rangesAux none (n :: rest')
    else match o with
      | none => rangesAux (some v) (n :: rest')
      | some _ => rangesAux o (n :: rest')) = _
  rw [if_pos hc]

/-- One step of the scan when `v` is consecutive with the next element and no
run is open. -/
theorem rangesAux_cons_cont_none (v n : Int) (rest' : List Int) (hc : v = n - 1) :
    rangesAux none (v :: n :: rest') = rangesAux (some v) (n :: rest') := by
  show (if v ≠ n - 1 then RangeItem.single v :: rangesAux none (n :: rest')
    else rangesAux (some v) (n :: rest')) = _
  rw [if_neg (not_not_intro hc)]

/-- One step of the scan when `v` is consecutive with the next element inside
an open run. -/
theorem rangesAux_cons_cont_some (s v n : Int) (rest' : List Int) (hc : v = n - 1) :
    rangesAux (some s) (v :: n :: rest') = rangesAux (some s) (n :: rest') := by
  show (if v ≠ n - 1 then RangeItem.span s v :: rangesAux none (n :: rest')
    else rangesAux (some s) (n :: rest')) = _
  rw [if_neg (not_not_intro hc)]

theorem flattenRanges_cons (r : RangeItem) (rs : List RangeItem) :
    flattenRanges (r :: rs) = flattenItem r ++ flattenRanges rs := rfl

/-- The scan of `CronPart.ranges` reconstructs a sorted nonnegative values
list: flattening its output yields the input back, and every emitted
`[start, end]` run has `start < end`.  The `some s` clause is the loop
invariant: `s` is the pending run start, strictly below the next element,
and the elements `s .. v-1` have already been consumed. -/
theorem rangesAux_spec : ∀ (N : Nat) (l : List Int), l.length ≤ N →
    List.Sorted (· < ·) l → (∀ x ∈ l, 0 ≤ x) →
    (flattenRanges (rangesAux none l) = l ∧
      (∀ a b, RangeItem.span a b ∈ rangesAux none l → a < b)) ∧
    (∀ s v rest, l = v :: rest → s < v →
      flattenRanges (rangesAux (some s) l) = intRange s (v - 1) ++ l ∧
      (∀ a b, RangeItem.span a b ∈ rangesAux (some s) l → a < b)) := by
  intro N
  induction N with
  | zero =>
    intro l hl _ _
    have hnil : l = [] := List.length_eq_zero.mp (Nat.le_zero.mp hl)
    subst hnil
    refine ⟨⟨rfl, ?_⟩, ?_⟩
    · intro a b hab
      simp [rangesAux] at hab
    · intro s v rest h
      exact absurd h (List.cons_ne_nil v rest).symm
  | succ N ih =>
    intro l hl hs h0
    rcases l with _ | ⟨v, _ | ⟨n, rest'⟩⟩
    · refine ⟨⟨rfl, ?_⟩, ?_⟩
      · intro a b hab
        simp [rangesAux] at hab
      · intro s v rest h
        exact absurd h (List.cons_ne_nil v rest).symm
    · -- singleton [v]
      have hv0 : (0 : Int) ≤ v := h0 v (List.mem_cons_self v [])
      constructor
      · constructor
        · rw [rangesAux_one none v (by omega)]
          rfl
        · intro a b hab
          rw [rangesAux_one none v (by omega)] at hab
          rcases List.mem_singleton.mp hab with h1
          exact RangeItem.noConfusion h1
      · intro s w rest heq hsv
        cases heq
        constructor
        · rw [rangesAux_one (some s) v (by omega), flattenRanges_cons]
          show intRange s v ++ [] = intRange s (v - 1) ++ [v]
          rw [List.append_nil, intRange_snoc_last (by omega : s ≤ v)]
        · intro a b hab
          rw [rangesAux_one (some s) v (by omega)] at hab
          rcases List.mem_singleton.mp hab with h1
          cases h1
          omega
    · -- v :: n :: rest'
      have hsc := List.sorted_cons.mp hs
      have hvn : v < n := hsc.1 n (List.mem_cons_self n rest')
      have htail := ih (n :: rest') (by simpa using hl) hsc.2
        (fun x hx => h0 x (List.mem_cons_of_mem v hx))
      by_cases hc : v = n - 1
      · -- consecutive: the run continues
        constructor
        · have hsome := htail.2 v n rest' rfl (by omega)
          constructor
          · rw [rangesAux_cons_cont_none v n rest' hc, hsome.1,
              show n - 1 = v from by omega, intRange_singleton]
            rfl
          · intro a b hab
            rw [rangesAux_cons_cont_none v n rest' hc] at hab
            exact hsome.2 a b hab
        · intro s w rest heq hsv
          cases heq
          have hsome := htail.2 s n rest' rfl (by omega)
          constructor
          · rw [rangesAux_cons_cont_some s v n rest' hc, hsome.1,
              show n - 1 = v from by omega, intRange_snoc_last (by omega : s ≤ v)]
            simp
          · intro a b hab
            rw [rangesAux_cons_cont_some s v n rest' hc] at hab
            exact hsome.2 a b hab
      · -- the run breaks at v
        have hnone := htail.1
        constructor
        · constructor
          · rw [rangesAux_cons_break none v n rest' hc, flattenRanges_cons, hnone.1]
            rfl
          · intro a b hab
            rw [rangesAux_cons_break none v n rest' hc] at hab
            rcases List.mem_cons.mp hab with h1 | h1
            · exact RangeItem.noConfusion h1
            · exact hnone.2 a b h1
        · intro s w rest heq hsv
          cases heq
          constructor
          · rw [rangesAux_cons_break (some s) v n rest' hc, flattenRanges_cons, hnone.1]
            show intRange s v ++ n :: rest' = intRange s (v - 1) ++ v :: n :: rest'
            rw [intRange_snoc_last (by omega : s ≤ v)]
            simp
          · intro a b hab
            rw [rangesAux_cons_break (some s) v n rest' hc] at hab
            rcases List.mem_cons.mp hab with h1 | h1
            · cases h1
              omega
            · exact hnone.2 a b h1

/-! ## Token-level parse lemmas (towards the C1 round trip) -/

theorem splitOnChar_no_sep {sep : Char} {l : List Char} (h : ∀ c ∈ l, c ≠ sep) :
    splitOnChar sep l = [l] :=
  splitOnPred_no_sep (fun c hc => decide_eq_false (h c hc))

theorem splitOnChar_pair {sep : Char} {x y : List Char}
    (hx : ∀ c ∈ x, c ≠ sep) (hy : ∀ c ∈ y, c ≠ sep) :
    splitOnChar sep (x ++ sep :: y) = [x, y] := by
  have h1 : splitOnPred (fun c => decide (c = sep)) (sep :: y) = [] :: [y] := by
    rw [splitOnPred_sep (by simp),
      splitOnPred_no_sep (fun c hc => decide_eq_false (hy c hc))]
  have h2 := splitOnPred_prepend (p := fun c => decide (c = sep))
    (fun c hc => decide_eq_false (hx c hc)) (sep :: y) h1
  simpa using h2

theorem mustSplit_no_slash {l : List Char} (h : ∀ c ∈ l, c ≠ '/') :
    mustSplit l = (l, none) := by
  unfold mustSplit
  rw [splitOnChar_no_sep h]

theorem mustSplit_one_slash {x y : List Char}
    (hx : ∀ c ∈ x, c ≠ '/') (hy : ∀ c ∈ y, c ≠ '/') :
    mustSplit (x ++ '/' :: y) = (x, some y) := by
  unfold mustSplit
  rw [splitOnChar_pair hx hy]

theorem natToChars_count_zero {n : Nat} {c : Char} (hc : c.isDigit = false) :
    (natToChars n).count c = 0 :=
  List.count_eq_zero.mpr (natToChars_not_mem hc)

theorem natToChars_ne_special (n : Nat) {c : Char} (hc : c.isDigit = false) :
    natToChars n ≠ [c] := by
  intro h
  have hm : c ∈ natToChars n := by
    rw [h]
    exact List.mem_singleton.mpr rfl
  exact natToChars_not_mem hc hm

theorem ne_singleton_of_two_le {l : List Char} {c : Char} (h : 2 ≤ l.length) :
    l ≠ [c] := by
  intro he
  rw [he] at h
  simp at h

theorem natToChars_one_le (n : Nat) : 1 ≤ (natToChars n).length := by
  rcases hl : natToChars n with _ | ⟨c, t⟩
  · exact absurd hl (natToChars_ne_nil n)
  · simp

theorem intToChars_nonneg {v : Int} (h : 0 ≤ v) : intToChars v = natToChars v.toNat := by
  unfold intToChars
  rw [if_neg (by omega)]

theorem pyIntOfChars_nonneg {v : Int} (h : 0 ≤ v) :
    pyIntOfChars (natToChars v.toNat) = some v := by
  rw [pyIntOfChars_natToChars, Int.toNat_of_nonneg h]

theorem mapIntList_single {t : List Char} {v : Int} (h : pyIntOfChars t = some v) :
    mapIntList [t] = .ok [v] := by
  simp only [mapIntList, h]
  rfl

theorem mapIntList_pair {t u : List Char} {v w : Int}
    (hv : pyIntOfChars t = some v) (hw : pyIntOfChars u = some w) :
    mapIntList [t, u] = .ok [v, w] := by
  simp only [mapIntList, hv, hw]
  rfl

theorem map_id_of_ne7 {l : List Int} (h : ∀ v ∈ l, v ≠ 7) :
    l.map (fun v => if v = 7 then 0 else v) = l := by
  induction l with
  | nil => rfl
  | cons a l ih =>
    simp only [List.map_cons]
    rw [if_neg (h a (List.mem_cons_self a l)),
      ih (fun v hv => h v (List.mem_cons_of_mem a hv))]

theorem replaceWeekday_id {u : CronUnit} {l : List Int}
    (h : u.name = "weekday" → ∀ v ∈ l, v ≠ 7) : replaceWeekday u l = l := by
  unfold replaceWeekday
  by_cases hn : u.name = "weekday"
  · rw [if_pos hn]
    exact map_id_of_ne7 (h hn)
  · rw [if_neg hn]

theorem parseRange_star (u : CronUnit) : parseRange u ['*'] = .ok (unitRange u) := by
  unfold parseRange
  rw [if_pos rfl]

theorem parseRange_single {u : CronUnit} {v : Int} (h0 : 0 ≤ v)
    (h7 : u.name = "weekday" → v ≠ 7) :
    parseRange u (natToChars v.toNat) = .ok [v] := by
  unfold parseRange
  rw [if_neg (natToChars_ne_special _ (by decide)),
    if_neg (by rw [natToChars_count_zero (by decide)]; omega),
    splitOnChar_no_sep (fun c hc => isDigit_ne_dash (natToChars_digits _ c hc)),
    mapIntList_single (pyIntOfChars_nonneg h0)]
  show Except.ok (replaceWeekday u [v]) = .ok [v]
  rw [replaceWeekday_id (fun hn w hw => by
    rcases List.mem_singleton.mp hw with rfl
    exact h7 hn)]

theorem parseRange_span {u : CronUnit} {a b : Int} (h0a : 0 ≤ a) (h0b : 0 ≤ b)
    (hab : a ≤ b)
    (h7 : u.name = "weekday" → ∀ v ∈ intRange a b, v ≠ 7) :
    parseRange u (natToChars a.toNat ++ '-' :: natToChars b.toNat) =
      .ok (intRange a b) := by
  have hda : ∀ c ∈ natToChars a.toNat, c ≠ '-' :=
    fun c hc => isDigit_ne_dash (natToChars_digits _ c hc)
  have hdb : ∀ c ∈ natToChars b.toNat, c ≠ '-' :=
    fun c hc => isDigit_ne_dash (natToChars_digits _ c hc)
  unfold parseRange
  rw [if_neg (ne_singleton_of_two_le
      (by
        have h1 := natToChars_one_le a.toNat
        simp only [List.length_append, List.length_cons]
        omega)),
    if_neg (by
      rw [List.count_append, natToChars_count_zero (by decide), List.count_cons,
        natToChars_count_zero (by decide)]
      simp),
    splitOnChar_pair hda hdb,
    mapIntList_pair (pyIntOfChars_nonneg h0a) (pyIntOfChars_nonneg h0b)]
  show (if b < a then Except.error PyErr.valueError
    else Except.ok (replaceWeekday u (intRange a b))) = .ok (intRange a b)
  rw [if_neg (by omega), replaceWeekday_id h7]

theorem fromStrToken_eval_none {u : CronUnit} {tok A : List Char} {r : List Int}
    (hq : tok ≠ ['?']) (hcount : ¬ 1 < tok.count '/')
    (hms : mustSplit tok = (A, none))
    (hpr : parseRange u A = .ok r)
    (hor : outOfRange u r = .ok r) :
    fromStrToken u tok = .ok r := by
  simp only [fromStrToken]
  rw [if_neg hq, if_neg hcount, hms]
  simp only [hpr, hor]
  rfl

theorem fromStrToken_eval_step {u : CronUnit} {tok A st : List Char} {r q : List Int}
    (hq : tok ≠ ['?']) (hcount : ¬ 1 < tok.count '/')
    (hms : mustSplit tok = (A, some st))
    (hpr : parseRange u A = .ok r)
    (hor : outOfRange u r = .ok r)
    (hne : st ≠ []) (hint : isIntStr st = true)
    (hiv : interval u r (some st) = .ok q) :
    fromStrToken u tok = .ok q := by
  simp only [fromStrToken]
  rw [if_neg hq, if_neg hcount, hms]
  simp only [hpr, hor]
  rw [if_neg hne, if_neg (not_not_intro hint)]
  exact hiv

theorem fromStrToken_star (u : CronUnit) :
    fromStrToken u ['*'] = .ok (unitRange u) :=
  fromStrToken_eval_none (by decide) (by decide)
    (@mustSplit_no_slash ['*'] (by decide)) (parseRange_star u)
    (outOfRange_ok_of_bounds (fun v hv => mem_intRange.mp hv))

theorem fromStrToken_single {u : CronUnit} {v : Int} (h0 : 0 ≤ v)
    (hb : (u.min : Int) ≤ v ∧ v ≤ (u.max : Int))
    (h7 : u.name = "weekday" → (u.max : Int) ≤ 6) :
    fromStrToken u (natToChars v.toNat) = .ok [v] :=
  fromStrToken_eval_none
    (natToChars_ne_special _ (by decide))
    (by rw [natToChars_count_zero (by decide)]; omega)
    (mustSplit_no_slash (fun c hc => isDigit_ne_slash (natToChars_digits _ c hc)))
    (parseRange_single h0 (fun hn => by have := h7 hn; omega))
    (outOfRange_ok_of_bounds (fun w hw => by
      rcases List.mem_singleton.mp hw with rfl
      exact hb))

theorem fromStrToken_span {u : CronUnit} {a b : Int} (h0 : 0 ≤ a) (hab : a < b)
    (hbA : (u.min : Int) ≤ a) (hbB : b ≤ (u.max : Int))
    (h7 : u.name = "weekday" → (u.max : Int) ≤ 6) :
    fromStrToken u (natToChars a.toNat ++ '-' :: natToChars b.toNat) =
      .ok (intRange a b) :=
  fromStrToken_eval_none
    (ne_singleton_of_two_le (by
      have h1 := natToChars_one_le a.toNat
      simp only [List.length_append, List.length_cons]
      omega))
    (by
      rw [List.count_append, natToChars_count_zero (by decide), List.count_cons,
        natToChars_count_zero (by decide)]
      simp)
    (mustSplit_no_slash (fun c hc => by
      rcases List.mem_append.mp hc with h1 | h1
      · exact isDigit_ne_slash (natToChars_digits _ c h1)
      · rcases List.mem_cons.mp h1 with rfl | h2
        · decide
        · exact isDigit_ne_slash (natToChars_digits _ c h2)))
    (parseRange_span h0 (by omega) hab.le (fun hn v hv => by
      have h1 := mem_intRange.mp hv
      have h2 := h7 hn
      omega))
    (outOfRange_ok_of_bounds (fun w hw => by
      have h1 := mem_intRange.mp hw
      exact ⟨by omega, by omega⟩))

theorem fromStrToken_star_step {u : CronUnit} {s : Int} (hs : 1 ≤ s)
    (hmm : u.min ≤ u.max) :
    fromStrToken u ('*' :: '/' :: natToChars s.toNat) =
      .ok ((unitRange u).filter
        (fun v => v % s == (u.min : Int) % s || v == (u.min : Int))) :=
  fromStrToken_eval_step
    (by intro h; simp at h)
    (by
      rw [List.count_cons, List.count_cons, natToChars_count_zero (by decide)]
      simp)
    (@mustSplit_one_slash ['*'] (natToChars s.toNat) (by decide)
      (fun c hc => isDigit_ne_slash (natToChars_digits _ c hc)))
    (parseRange_star u)
    (outOfRange_ok_of_bounds (fun v hv => mem_intRange.mp hv))
    (natToChars_ne_nil _)
    (by
      unfold isIntStr
      rw [pyIntOfChars_nonneg (by omega : (0 : Int) ≤ s)]
      rfl)
    (interval_intRange (by exact_mod_cast hmm) hs
      (pyIntOfChars_nonneg (by omega : (0 : Int) ≤ s)))

theorem fromStrToken_range_step {u : CronUnit} {a b s : Int}
    (h0 : 0 ≤ a) (hab : a < b) (hs : 1 ≤ s)
    (hbA : (u.min : Int) ≤ a) (hbB : b ≤ (u.max : Int))
    (h7 : u.name = "weekday" → (u.max : Int) ≤ 6) :
    fromStrToken u ((natToChars a.toNat ++ '-' :: natToChars b.toNat) ++
        '/' :: natToChars s.toNat) =
      .ok ((intRange a b).filter (fun v => v % s == a % s || v == a)) :=
  fromStrToken_eval_step
    (ne_singleton_of_two_le (by
      have h1 := natToChars_one_le a.toNat
      simp only [List.length_append, List.length_cons]
      omega))
    (by
      rw [List.count_append, List.count_append, natToChars_count_zero (by decide),
        List.count_cons, natToChars_count_zero (by decide), List.count_cons,
        natToChars_count_zero (by decide)]
      simp)
    (mustSplit_one_slash
      (fun c hc => by
        rcases List.mem_append.mp hc with h1 | h1
        · exact isDigit_ne_slash (natToChars_digits _ c h1)
        · rcases List.mem_cons.mp h1 with rfl | h2
          · decide
          · exact isDigit_ne_slash (natToChars_digits _ c h2))
      (fun c hc => isDigit_ne_slash (natToChars_digits _ c hc)))
    (parseRange_span h0 (by omega) hab.le (fun hn v hv => by
      have h1 := mem_intRange.mp hv
      have h2 := h7 hn
      omega))
    (outOfRange_ok_of_bounds (fun w hw => by
      have h1 := mem_intRange.mp hw
      exact ⟨by omega, by omega⟩))
    (natToChars_ne_nil _)
    (by
      unfold isIntStr
      rw [pyIntOfChars_nonneg (by omega : (0 : Int) ≤ s)]
      rfl)
    (interval_intRange hab.le hs (pyIntOfChars_nonneg (by omega : (0 : Int) ≤ s)))

theorem fromStrTokens_cons_ok {u : CronUnit} {t : List Char} {ts : List (List Char)}
    {vs tail : List Int}
    (h1 : fromStrToken u t = .ok vs) (h2 : fromStrTokens u ts = .ok tail) :
    fromStrTokens u (t :: ts) = .ok (vs ++ tail) := by
  simp only [fromStrTokens, h1, h2]

theorem fromStrTokens_single_ok {u : CronUnit} {t : List Char} {vs : List Int}
    (h : fromStrToken u t = .ok vs) :
    fromStrTokens u [t] = .ok vs := by
  rw [fromStrTokens_cons_ok h (show fromStrTokens u [] = .ok [] from rfl),
    List.append_nil]

theorem fromStrTokens_items {u : CronUnit}
    (h7 : u.name = "weekday" → (u.max : Int) ≤ 6) :
    ∀ items : List RangeItem,
    (∀ a b, RangeItem.span a b ∈ items → a < b) →
    (∀ r ∈ items, ∀ x ∈ flattenItem r, (u.min : Int) ≤ x ∧ x ≤ (u.max : Int)) →
    fromStrTokens u (items.map itemChars) = .ok (flattenRanges items)
  | [], _, _ => rfl
  | r :: rs, hwf, hb => by
    have htail := fromStrTokens_items h7 rs
      (fun a b hab => hwf a b (List.mem_cons_of_mem r hab))
      (fun q hq => hb q (List.mem_cons_of_mem r hq))
    have hhead : fromStrToken u (itemChars r) = .ok (flattenItem r) := by
      rcases r with v | ⟨a, b⟩
      · have hbv := hb (RangeItem.single v) (List.mem_cons_self _ _) v
          (List.mem_singleton.mpr rfl)
        have h0 : (0 : Int) ≤ v := le_trans (Int.natCast_nonneg u.min) hbv.1
        show fromStrToken u (intToChars v) = .ok [v]
        rw [intToChars_nonneg h0]
        exact fromStrToken_single h0 hbv h7
      · have hab : a < b := hwf a b (List.mem_cons_self _ _)
        have hba := hb (RangeItem.span a b) (List.mem_cons_self _ _)
        have hbA := hba a (mem_intRange.mpr ⟨le_refl a, hab.le⟩)
        have hbB := hba b (mem_intRange.mpr ⟨hab.le, le_refl b⟩)
        have h0 : (0 : Int) ≤ a := le_trans (Int.natCast_nonneg u.min) hbA.1
        show fromStrToken u (intToChars a ++ '-' :: intToChars b) = .ok (intRange a b)
        rw [intToChars_nonneg h0, intToChars_nonneg (by omega)]
        exact fromStrToken_span h0 hab hbA.1 hbB.2 h7
    show fromStrTokens u (itemChars r :: rs.map itemChars) =
      .ok (flattenItem r ++ flattenRanges rs)
    exact fromStrTokens_cons_ok hhead htail

/-! ## Per-part serialization shape and reconstruction (C1) -/

theorem cronPartInit_of_raw {u : CronUnit} {inp : PartInput} {V : List Int}
    {opts : Options}
    (hraw : cronPartRaw u inp = .ok V)
    (hs : List.Sorted (· < ·) V)
    (hb : ∀ v ∈ V, (u.min : Int) ≤ v ∧ v ≤ (u.max : Int)) :
    cronPartInit u inp opts = .ok ⟨u, opts, V⟩ := by
  simp only [cronPartInit, hraw, sortedUnique_eq_self hs, outOfRange_ok_of_bounds hb]

theorem headD_mem {l : List Int} (h : l ≠ []) : l.headD 0 ∈ l := by
  rcases l with _ | ⟨v, t⟩
  · exact absurd rfl h
  · exact List.mem_cons_self v t

theorem getLastD_mem {l : List Int} (h : l ≠ []) : l.getLastD 0 ∈ l := by
  rw [List.getLastD_eq_getLast?, List.getLast?_eq_getLast_of_ne_nil h]
  exact List.getLast_mem h

theorem intToChars_ne_nil (v : Int) : intToChars v ≠ [] := by
  unfold intToChars
  split
  · simp
  · exact natToChars_ne_nil _

theorem intToChars_chars (v : Int) : ∀ c ∈ intToChars v, c.isDigit = true ∨ c = '-' := by
  unfold intToChars
  split
  · intro c hc
    rcases List.mem_cons.mp hc with rfl | h1
    · exact Or.inr rfl
    · exact Or.inl (natToChars_digits _ c h1)
  · intro c hc
    exact Or.inl (natToChars_digits _ c hc)

theorem itemChars_serial (r : RangeItem) : ∀ c ∈ itemChars r, c ∈ serialChars := by
  rcases r with v | ⟨a, b⟩
  · exact intToChars_mem_serial v
  · intro c hc
    rcases List.mem_append.mp hc with h1 | h1
    · exact intToChars_mem_serial a c h1
    · rcases List.mem_cons.mp h1 with rfl | h2
      · decide
      · exact intToChars_mem_serial b c h2

theorem itemChars_chars (r : RangeItem) :
    ∀ c ∈ itemChars r, c.isDigit = true ∨ c = '-' := by
  rcases r with v | ⟨a, b⟩
  · exact intToChars_chars v
  · intro c hc
    rcases List.mem_append.mp hc with h1 | h1
    · exact intToChars_chars a c h1
    · rcases List.mem_cons.mp h1 with rfl | h2
      · exact Or.inr rfl
      · exact intToChars_chars b c h2

theorem itemChars_ne_nil (r : RangeItem) : itemChars r ≠ [] := by
  rcases r with v | ⟨a, b⟩
  · exact intToChars_ne_nil v
  · simp [itemChars]

theorem joinSep_ne_nil {sep : List Char} : ∀ {ts : List (List Char)}, ts ≠ [] →
    (∀ t ∈ ts, t ≠ []) → joinSep sep ts ≠ []
  | [], h, _ => absurd rfl h
  | [t], _, hne => by
    show t ≠ []
    exact hne t (List.mem_singleton.mpr rfl)
  | t :: t2 :: ts, _, hne => by
    show (t ++ (sep : List Char)) ++ joinSep sep (t2 :: ts) ≠ []
    intro h
    rcases List.append_eq_nil.mp h with ⟨h1, _⟩
    rcases List.append_eq_nil.mp h1 with ⟨h2, _⟩
    exact hne t (List.mem_cons_self _ _) h2

theorem splitOnChar_joinSep {sep : Char} {ts : List (List Char)} (hne : ts ≠ [])
    (hts : ∀ t ∈ ts, ∀ c ∈ t, c ≠ sep) :
    splitOnChar sep (joinSep [sep] ts) = ts :=
  splitOnPred_joinSep (by simp) ts hne
    (fun t ht c hc => decide_eq_false (hts t ht c hc))

theorem mem_flattenRanges {x : Int} {r : RangeItem} {rs : List RangeItem}
    (hr : r ∈ rs) (hx : x ∈ flattenItem r) : x ∈ flattenRanges rs := by
  induction rs with
  | nil => cases hr
  | cons q qs ih =>
    rw [flattenRanges_cons]
    rcases List.mem_cons.mp hr with rfl | h2
    · exact List.mem_append.mpr (Or.inl hx)
    · exact List.mem_append.mpr (Or.inr (ih h2))

theorem filler_default {p : CronPart} (ho : p.options = defaultOptions) (v : Int) :
    filler p v = intToChars v := by
  unfold filler
  rw [ho]
  rw [if_neg (by simp [defaultOptions])]

theorem stepOf_facts {u : CronUnit} {o : Options} {V : List Int} {s : Int}
    (h : stepOf ⟨u, o, V⟩ = some s) : 2 ≤ s ∧ 3 ≤ V.length := by
  rcases V with _ | ⟨v0, _ | ⟨v1, _ | ⟨v2, rest⟩⟩⟩ <;>
    unfold stepOf at h <;> dsimp only at h
  · exact Option.noConfusion h
  · exact Option.noConfusion h
  · exact Option.noConfusion h
  · by_cases h1 : 1 < v1 - v0
    · rw [if_pos h1] at h
      cases h
      refine ⟨by omega, by simp⟩
    · rw [if_neg h1] at h
      exact Option.noConfusion h

theorem isFullInterval_facts {u : CronUnit} {o : Options} {V : List Int} {s : Int}
    (hstep : stepOf ⟨u, o, V⟩ = some s)
    (h : isFullInterval ⟨u, o, V⟩ = true) :
    V.headD 0 = (u.min : Int) ∧ (u.max : Int) < V.getLastD 0 + s := by
  unfold isFullInterval at h
  rw [hstep] at h
  rw [decide_eq_true_eq] at h
  exact ⟨h.1, h.2.1⟩

theorem partStr_full {u : CronUnit} {V : List Int}
    (hF : isFull ⟨u, defaultOptions, V⟩ = true) :
    partStrChars ⟨u, defaultOptions, V⟩ = ['*'] := by
  have ho3 : defaultOptions.output_hashes = false := rfl
  simp only [partStrChars, hF]
  simp [ho3]

theorem partStr_fullint {u : CronUnit} {V : List Int} {s : Int}
    (hF : isFull ⟨u, defaultOptions, V⟩ = false)
    (hI : isInterval ⟨u, defaultOptions, V⟩ = true)
    (hstep : stepOf ⟨u, defaultOptions, V⟩ = some s)
    (hFI : isFullInterval ⟨u, defaultOptions, V⟩ = true) :
    partStrChars ⟨u, defaultOptions, V⟩ = '*' :: '/' :: intToChars s := by
  have ho3 : defaultOptions.output_hashes = false := rfl
  simp only [partStrChars, hF, hI, hstep, hFI]
  simp [ho3]

theorem partStr_interval {u : CronUnit} {V : List Int} {s : Int}
    (hF : isFull ⟨u, defaultOptions, V⟩ = false)
    (hI : isInterval ⟨u, defaultOptions, V⟩ = true)
    (hstep : stepOf ⟨u, defaultOptions, V⟩ = some s)
    (hFI : isFullInterval ⟨u, defaultOptions, V⟩ = false) :
    partStrChars ⟨u, defaultOptions, V⟩ =
      intToChars (V.headD 0) ++ '-' :: intToChars (V.getLastD 0) ++
        '/' :: intToChars s := by
  have ho1 : defaultOptions.output_weekday_names = false := rfl
  have ho2 : defaultOptions.output_month_names = false := rfl
  have ho3 : defaultOptions.output_hashes = false := rfl
  simp only [partStrChars, hF, hI, hstep, hFI]
  simp [filler, ho1, ho2, ho3, partMin, partMax]

theorem partStr_ranges {u : CronUnit} {V : List Int}
    (hF : isFull ⟨u, defaultOptions, V⟩ = false)
    (hI : isInterval ⟨u, defaultOptions, V⟩ = false) :
    partStrChars ⟨u, defaultOptions, V⟩ =
      if (pranges ⟨u, defaultOptions, V⟩).map itemChars = [] then ['?']
      else joinSep [','] ((pranges ⟨u, defaultOptions, V⟩).map itemChars) := by
  have ho1 : defaultOptions.output_weekday_names = false := rfl
  have ho2 : defaultOptions.output_month_names = false := rfl
  simp only [partStrChars, hF, hI, Bool.false_eq_true, if_false]
  have hfun : (fun r => match r with
      | RangeItem.single v => filler ⟨u, defaultOptions, V⟩ v
      | RangeItem.span a b => filler ⟨u, defaultOptions, V⟩ a ++
          '-' :: filler ⟨u, defaultOptions, V⟩ b) = itemChars := by
    funext r
    rcases r with v | ⟨a, b⟩
    · show filler ⟨u, defaultOptions, V⟩ v = intToChars v
      rw [filler_default rfl]
    · show filler ⟨u, defaultOptions, V⟩ a ++ '-' :: filler ⟨u, defaultOptions, V⟩ b =
        intToChars a ++ '-' :: intToChars b
      rw [filler_default rfl, filler_default rfl]
  rw [hfun]

/-- Per-part round trip: re-parsing the default-options serialization of a
constructed part's values reproduces the values exactly; moreover the
serialization is nonempty and consists of serial characters only. -/
theorem partStr_reparse (u : CronUnit) (V : List Int)
    (hmm : u.min ≤ u.max)
    (ha : ∀ a ∈ u.alt, headNotSerial a = true)
    (h7 : u.name = "weekday" → (u.max : Int) ≤ 6)
    (hs : List.Sorted (· < ·) V)
    (hb : ∀ v ∈ V, (u.min : Int) ≤ v ∧ v ≤ (u.max : Int)) :
    (∀ c ∈ partStrChars ⟨u, defaultOptions, V⟩, c ∈ serialChars) ∧
    partStrChars ⟨u, defaultOptions, V⟩ ≠ [] ∧
    cronPartInit u (.str (String.mk (partStrChars ⟨u, defaultOptions, V⟩)))
      defaultOptions = .ok ⟨u, defaultOptions, V⟩ := by
  have h0b : ∀ v ∈ V, (0 : Int) ≤ v :=
    fun v hv => le_trans (Int.natCast_nonneg u.min) (hb v hv).1
  by_cases hF : isFull ⟨u, defaultOptions, V⟩ = true
  · -- full field: serialized as "*"
    have hFx : (V.length : Int) = (u.max : Int) - (u.min : Int) + 1 := by
      unfold isFull at hF
      rw [decide_eq_true_eq] at hF
      exact hF
    have hVu : V = intRange (u.min : Int) (u.max : Int) :=
      sorted_eq_intRange hs hb hFx
    rw [partStr_full hF]
    refine ⟨by decide, by decide, ?_⟩
    have hraw : cronPartRaw u (.str (String.mk ['*'])) = .ok V := by
      rw [cronPartRaw_str (by decide), fromStr_clean (by decide) ha,
        @splitOnChar_no_sep ',' ['*'] (by decide),
        fromStrTokens_single_ok (fromStrToken_star u), hVu]
      rfl
    exact cronPartInit_of_raw hraw hs hb
  · rw [Bool.not_eq_true] at hF
    by_cases hI : isInterval ⟨u, defaultOptions, V⟩ = true
    · -- interval: serialized as "*/s" or "min-max/s"
      rcases hstep : stepOf ⟨u, defaultOptions, V⟩ with _ | s
      · exfalso
        unfold isInterval at hI
        rw [hstep] at hI
        exact Bool.noConfusion hI
      obtain ⟨hs2, hn3⟩ := stepOf_facts hstep
      have hgaps : gapsAllEq s V = true := by
        unfold isInterval at hI
        rw [hstep] at hI
        exact hI
      have hVap := gapsAllEq_eq_apList hgaps
      have hVne : V ≠ [] := by
        intro h
        rw [h] at hn3
        simp at hn3
      have hlastV : V.getLastD 0 = V.headD 0 + s * ((V.length : Int) - 1) := by
        conv_lhs => rw [hVap]
        rw [apList_getLastD _ _ (by omega)]
      have hbA := hb _ (headD_mem hVne)
      have hbB := hb _ (getLastD_mem hVne)
      have hring : s * ((V.length : Int) - 1) + s = s * (V.length : Int) := by ring
      by_cases hFI : isFullInterval ⟨u, defaultOptions, V⟩ = true
      · -- "*/s"
        obtain ⟨hamin, hover⟩ := isFullInterval_facts hstep hFI
        have hS : partStrChars ⟨u, defaultOptions, V⟩ =
            '*' :: '/' :: natToChars s.toNat := by
          rw [partStr_fullint hF hI hstep hFI, intToChars_nonneg (by omega)]
        rw [hS]
        have hser : ∀ c ∈ '*' :: '/' :: natToChars s.toNat, c ∈ serialChars := by
          intro c hc
          rcases List.mem_cons.mp hc with rfl | hc2
          · decide
          rcases List.mem_cons.mp hc2 with rfl | hc3
          · decide
          · exact natToChars_mem_serial _ c hc3
        refine ⟨hser, by simp, ?_⟩
        have hfilter : (unitRange u).filter
            (fun v => v % s == ((u.min : Int)) % s || v == ((u.min : Int))) =
            apList (u.min : Int) s V.length := by
          refine filter_intRange_ap (by omega) (by omega) (by omega) (by omega)
        have hnc : ∀ c ∈ '*' :: '/' :: natToChars s.toNat, c ≠ ',' := by
          intro c hc
          rcases List.mem_cons.mp hc with rfl | hc2
          · decide
          rcases List.mem_cons.mp hc2 with rfl | hc3
          · decide
          · exact isDigit_ne_comma (natToChars_digits _ c hc3)
        have hraw : cronPartRaw u
            (.str (String.mk ('*' :: '/' :: natToChars s.toNat))) = .ok V := by
          rw [cronPartRaw_str (by intro h; simp at h), fromStr_clean hser ha,
            @splitOnChar_no_sep ',' ('*' :: '/' :: natToChars s.toNat) hnc,
            fromStrTokens_single_ok (fromStrToken_star_step (by omega) hmm),
            hfilter, ← hamin, ← hVap]
        exact cronPartInit_of_raw hraw hs hb
      · -- "min-max/s"
        rw [Bool.not_eq_true] at hFI
        have h0a : (0 : Int) ≤ V.headD 0 := h0b _ (headD_mem hVne)
        have h0last : (0 : Int) ≤ V.getLastD 0 := h0b _ (getLastD_mem hVne)
        have hpos : 0 < s * ((V.length : Int) - 1) :=
          mul_pos (by omega) (by omega)
        have hS : partStrChars ⟨u, defaultOptions, V⟩ =
            (natToChars (V.headD 0).toNat ++
              '-' :: natToChars (V.getLastD 0).toNat) ++
              '/' :: natToChars s.toNat := by
          rw [partStr_interval hF hI hstep hFI, intToChars_nonneg h0a,
            intToChars_nonneg h0last, intToChars_nonneg (by omega)]
        rw [hS]
        have hser : ∀ c ∈ (natToChars (V.headD 0).toNat ++
            '-' :: natToChars (V.getLastD 0).toNat) ++
            '/' :: natToChars s.toNat, c ∈ serialChars := by
          intro c hc
          rcases List.mem_append.mp hc with h1 | h1
          · rcases List.mem_append.mp h1 with h2 | h2
            · exact natToChars_mem_serial _ c h2
            · rcases List.mem_cons.mp h2 with rfl | h3
              · decide
              · exact natToChars_mem_serial _ c h3
          · rcases List.mem_cons.mp h1 with rfl | h3
            · decide
            · exact natToChars_mem_serial _ c h3
        have hnc : ∀ c ∈ (natToChars (V.headD 0).toNat ++
            '-' :: natToChars (V.getLastD 0).toNat) ++
            '/' :: natToChars s.toNat, c ≠ ',' := by
          intro c hc
          rcases List.mem_append.mp hc with h1 | h1
          · rcases List.mem_append.mp h1 with h2 | h2
            · exact isDigit_ne_comma (natToChars_digits _ c h2)
            · rcases List.mem_cons.mp h2 with rfl | h3
              · decide
              · exact isDigit_ne_comma (natToChars_digits _ c h3)
          · rcases List.mem_cons.mp h1 with rfl | h3
            · decide
            · exact isDigit_ne_comma (natToChars_digits _ c h3)
        refine ⟨hser, ?_, ?_⟩
        · intro h
          rcases List.append_eq_nil.mp h with ⟨_, h2⟩
          exact List.cons_ne_nil _ _ h2
        · have hfilter : (intRange (V.headD 0) (V.getLastD 0)).filter
              (fun v => v % s == (V.headD 0) % s || v == (V.headD 0)) =
              apList (V.headD 0) s V.length := by
            refine filter_intRange_ap (by omega) (by omega) (by omega) (by omega)
          have hraw : cronPartRaw u (.str (String.mk
              ((natToChars (V.headD 0).toNat ++
                '-' :: natToChars (V.getLastD 0).toNat) ++
                '/' :: natToChars s.toNat))) = .ok V := by
            rw [cronPartRaw_str (ne_singleton_of_two_le (by
                have h1 := natToChars_one_le (V.headD 0).toNat
                simp only [List.length_append, List.length_cons]
                omega)),
              fromStr_clean hser ha,
              @splitOnChar_no_sep ','
                ((natToChars (V.headD 0).toNat ++
                  '-' :: natToChars (V.getLastD 0).toNat) ++
                  '/' :: natToChars s.toNat) hnc,
              fromStrTokens_single_ok
                (fromStrToken_range_step h0a (by omega) (by omega) hbA.1 hbB.2 h7),
              hfilter, ← hVap]
          exact cronPartInit_of_raw hraw hs hb
    · -- not an interval: serialized as comma-joined ranges (or "?")
      rw [Bool.not_eq_true] at hI
      by_cases hVnil : V = []
      · subst hVnil
        have hS : partStrChars ⟨u, defaultOptions, ([] : List Int)⟩ = ['?'] := by
          rw [partStr_ranges hF hI]
          rfl
        rw [hS]
        refine ⟨by decide, by decide, ?_⟩
        have hraw : cronPartRaw u (.str (String.mk ['?'])) = .ok [] := by
          show (if String.mk ['?'] = "?" then Except.ok [] else
            fromStr u (String.mk ['?']).data) = .ok []
          rw [if_pos (by decide)]
        exact cronPartInit_of_raw hraw (by simp) (by simp)
      · have hspec := rangesAux_spec V.length V (le_refl _) hs h0b
        have hflat : flattenRanges (pranges ⟨u, defaultOptions, V⟩) = V := hspec.1.1
        have hspans : ∀ a b, RangeItem.span a b ∈ pranges ⟨u, defaultOptions, V⟩ →
            a < b := hspec.1.2
        have hprne : pranges ⟨u, defaultOptions, V⟩ ≠ [] := by
          intro h
          rw [h] at hflat
          exact hVnil hflat.symm
        have htoksne : (pranges ⟨u, defaultOptions, V⟩).map itemChars ≠ [] := by
          simp [hprne]
        have hS := partStr_ranges hF hI
        rw [if_neg htoksne] at hS
        rw [hS]
        have htokser : ∀ t ∈ (pranges ⟨u, defaultOptions, V⟩).map itemChars,
            ∀ c ∈ t, c ∈ serialChars := by
          intro t ht c hc
          rcases List.mem_map.mp ht with ⟨r, _, rfl⟩
          exact itemChars_serial r c hc
        have hser : ∀ c ∈ joinSep [','] ((pranges ⟨u, defaultOptions, V⟩).map itemChars),
            c ∈ serialChars :=
          mem_joinSep (by decide) _ htokser
        have htne : ∀ t ∈ (pranges ⟨u, defaultOptions, V⟩).map itemChars, t ≠ [] := by
          intro t ht
          rcases List.mem_map.mp ht with ⟨r, _, rfl⟩
          exact itemChars_ne_nil r
        have hncomma : ∀ t ∈ (pranges ⟨u, defaultOptions, V⟩).map itemChars,
            ∀ c ∈ t, c ≠ ',' := by
          intro t ht c hc
          rcases List.mem_map.mp ht with ⟨r, _, rfl⟩
          intro he
          subst he
          rcases itemChars_chars r ',' hc with h | h
          · exact absurd h (by decide)
          · exact absurd h (by decide)
        have htokq : ∀ t ∈ (pranges ⟨u, defaultOptions, V⟩).map itemChars,
            ∀ c ∈ t, c ≠ '?' := by
          intro t ht c hc
          rcases List.mem_map.mp ht with ⟨r, _, rfl⟩
          intro he
          subst he
          rcases itemChars_chars r '?' hc with h | h
          · exact absurd h (by decide)
          · exact absurd h (by decide)
        have hq : joinSep [','] ((pranges ⟨u, defaultOptions, V⟩).map itemChars) ≠
            ['?'] := by
          intro h
          have hm : '?' ∈ joinSep [',']
              ((pranges ⟨u, defaultOptions, V⟩).map itemChars) := by
            rw [h]
            exact List.mem_singleton.mpr rfl
          exact mem_joinSep (show ∀ c ∈ [','], c ≠ '?' from by decide)
            ((pranges ⟨u, defaultOptions, V⟩).map itemChars) htokq '?' hm rfl
        refine ⟨hser, joinSep_ne_nil htoksne htne, ?_⟩
        have hbounds : ∀ r ∈ pranges ⟨u, defaultOptions, V⟩, ∀ x ∈ flattenItem r,
            (u.min : Int) ≤ x ∧ x ≤ (u.max : Int) := by
          intro r hr x hx
          exact hb x (hflat ▸ mem_flattenRanges hr hx)
        have hraw : cronPartRaw u (.str (String.mk
            (joinSep [','] ((pranges ⟨u, defaultOptions, V⟩).map itemChars)))) =
            .ok V := by
          rw [cronPartRaw_str hq, fromStr_clean hser ha,
            splitOnChar_joinSep htoksne hncomma,
            fromStrTokens_items h7 (pranges ⟨u, defaultOptions, V⟩) hspans hbounds,
            hflat]
        exact cronPartInit_of_raw hraw hs hb

/-! ## Whole-expression round trip (C1) -/

theorem cronJobParse_eval {opts : Options} {S : String} {ts : List (List Char)}
    (hsplit : pySplitWs S.data = ts) :
    cronJobParse opts S =
      (if ts.length ≠ 5 then .error .valueError
       else match initParts opts cronUnits ts with
       | .error e => .error e
       | .ok parts =>
         if (parts.getD 2 defaultPart).values = (parts.getD 4 defaultPart).values
         then .error .attributeError
         else .ok ⟨opts, parts⟩) := by
  unfold cronJobParse
  rw [hsplit]

theorem exists_five {α : Type} {l : List α} (h : l.length = 5) :
    ∃ a b c d e, l = [a, b, c, d, e] := by
  rcases l with _ | ⟨a, _ | ⟨b, _ | ⟨c, _ | ⟨d, _ | ⟨e, _ | ⟨f, r⟩⟩⟩⟩⟩⟩ <;>
    simp only [List.length_nil, List.length_cons] at h
  · exact absurd h (by omega)
  · exact absurd h (by omega)
  · exact absurd h (by omega)
  · exact absurd h (by omega)
  · exact absurd h (by omega)
  · exact ⟨a, b, c, d, e, rfl⟩
  · exact absurd h (by omega)

theorem initParts_five {opts : Options} {t0 t1 t2 t3 t4 : List Char}
    {parts : List CronPart}
    (h : initParts opts cronUnits [t0, t1, t2, t3, t4] = .ok parts) :
    ∃ p0 p1 p2 p3 p4, parts = [p0, p1, p2, p3, p4] ∧
      cronPartInit minuteUnit (.str (String.mk t0)) opts = .ok p0 ∧
      cronPartInit hourUnit (.str (String.mk t1)) opts = .ok p1 ∧
      cronPartInit dayUnit (.str (String.mk t2)) opts = .ok p2 ∧
      cronPartInit monthUnit (.str (String.mk t3)) opts = .ok p3 ∧
      cronPartInit weekdayUnit (.str (String.mk t4)) opts = .ok p4 := by
  simp only [cronUnits, initParts] at h
  rcases h0 : cronPartInit minuteUnit (.str (String.mk t0)) opts with e | p0
  · simp only [h0] at h
    exact Except.noConfusion h
  · simp only [h0] at h
    rcases h1 : cronPartInit hourUnit (.str (String.mk t1)) opts with e | p1
    · simp only [h1] at h
      exact Except.noConfusion h
    · simp only [h1] at h
      rcases h2 : cronPartInit dayUnit (.str (String.mk t2)) opts with e | p2
      · simp only [h2] at h
        exact Except.noConfusion h
      · simp only [h2] at h
        rcases h3 : cronPartInit monthUnit (.str (String.mk t3)) opts with e | p3
        · simp only [h3] at h
          exact Except.noConfusion h
        · simp only [h3] at h
          rcases h4 : cronPartInit weekdayUnit (.str (String.mk t4)) opts with e | p4
          · simp only [h4] at h
            exact Except.noConfusion h
          · simp only [h4] at h
            refine ⟨p0, p1, p2, p3, p4, ?_, rfl, rfl, rfl, rfl, rfl⟩
            simp only [Except.ok.injEq] at h
            exact h.symm

/-- C1: for every 5-field expression string accepted by the parser, re-parsing
the serialization of the parse succeeds and yields, field by field, exactly
the same integer value sets (under default options); the intermediate string
need not equal the input byte-for-byte. -/
theorem c1_round_trip (s : String) (j : CronJob)
    (h : cronJobParse defaultOptions s = .ok j) :
    ∃ j2 : CronJob,
      cronJobParse defaultOptions (String.mk (cronJobStrChars j)) = .ok j2 ∧
      toFields j2 = toFields j := by
  rw [cronJobParse_eval rfl] at h
  by_cases hlen : (pySplitWs s.data).length ≠ 5
  · rw [if_pos hlen] at h
    exact Except.noConfusion h
  rw [if_neg hlen] at h
  rw [not_not] at hlen
  obtain ⟨t0, t1, t2, t3, t4, hT⟩ := exists_five hlen
  rw [hT] at h
  rcases hIP : initParts defaultOptions cronUnits [t0, t1, t2, t3, t4] with e | parts
  · simp only [hIP] at h
    exact Except.noConfusion h
  · simp only [hIP] at h
    by_cases hvne : (parts.getD 2 defaultPart).values = (parts.getD 4 defaultPart).values
    · rw [if_pos hvne] at h
      exact Except.noConfusion h
    · rw [if_neg hvne] at h
      obtain rfl : (⟨defaultOptions, parts⟩ : CronJob) = j := by simpa using h
      obtain ⟨p0, p1, p2, p3, p4, rfl, h0, h1, h2, h3, h4⟩ := initParts_five hIP
      obtain ⟨r0, hraw0, hp0, hs0, hb0⟩ := cronPartInit_ok h0
      obtain ⟨r1, hraw1, hp1, hs1, hb1⟩ := cronPartInit_ok h1
      obtain ⟨r2, hraw2, hp2, hs2, hb2⟩ := cronPartInit_ok h2
      obtain ⟨r3, hraw3, hp3, hs3, hb3⟩ := cronPartInit_ok h3
      obtain ⟨r4, hraw4, hp4, hs4, hb4⟩ := cronPartInit_ok h4
      subst hp0
      subst hp1
      subst hp2
      subst hp3
      subst hp4
      have hre0 := partStr_reparse minuteUnit (sortedUnique r0) (by decide) (by decide)
        (by decide) hs0 hb0
      have hre1 := partStr_reparse hourUnit (sortedUnique r1) (by decide) (by decide)
        (by decide) hs1 hb1
      have hre2 := partStr_reparse dayUnit (sortedUnique r2) (by decide) (by decide)
        (by decide) hs2 hb2
      have hre3 := partStr_reparse monthUnit (sortedUnique r3) (by decide) (by decide)
        (by decide) hs3 hb3
      have hre4 := partStr_reparse weekdayUnit (sortedUnique r4) (by decide) (by decide)
        (by decide) hs4 hb4
      refine ⟨⟨defaultOptions,
        [⟨minuteUnit, defaultOptions, sortedUnique r0⟩,
         ⟨hourUnit, defaultOptions, sortedUnique r1⟩,
         ⟨dayUnit, defaultOptions, sortedUnique r2⟩,
         ⟨monthUnit, defaultOptions, sortedUnique r3⟩,
         ⟨weekdayUnit, defaultOptions, sortedUnique r4⟩]⟩, ?_, rfl⟩
      have hsplit : pySplitWs (String.mk (cronJobStrChars ⟨defaultOptions,
          [⟨minuteUnit, defaultOptions, sortedUnique r0⟩,
           ⟨hourUnit, defaultOptions, sortedUnique r1⟩,
           ⟨dayUnit, defaultOptions, sortedUnique r2⟩,
           ⟨monthUnit, defaultOptions, sortedUnique r3⟩,
           ⟨weekdayUnit, defaultOptions, sortedUnique r4⟩]⟩)).data =
          [partStrChars ⟨minuteUnit, defaultOptions, sortedUnique r0⟩,
           partStrChars ⟨hourUnit, defaultOptions, sortedUnique r1⟩,
           partStrChars ⟨dayUnit, defaultOptions, sortedUnique r2⟩,
           partStrChars ⟨monthUnit, defaultOptions, sortedUnique r3⟩,
           partStrChars ⟨weekdayUnit, defaultOptions, sortedUnique r4⟩] := by
        show pySplitWs (joinSep [' ']
          [partStrChars ⟨minuteUnit, defaultOptions, sortedUnique r0⟩,
           partStrChars ⟨hourUnit, defaultOptions, sortedUnique r1⟩,
           partStrChars ⟨dayUnit, defaultOptions, sortedUnique r2⟩,
           partStrChars ⟨monthUnit, defaultOptions, sortedUnique r3⟩,
           partStrChars ⟨weekdayUnit, defaultOptions, sortedUnique r4⟩]) = _
        refine pySplitWs_joinSep _ ?_ ?_
        · intro t ht
          simp only [List.mem_cons] at ht
          rcases ht with rfl | rfl | rfl | rfl | rfl | ht
          · exact hre0.2.1
          · exact hre1.2.1
          · exact hre2.2.1
          · exact hre3.2.1
          · exact hre4.2.1
          · exact absurd ht (List.not_mem_nil t)
        · intro t ht c hc
          simp only [List.mem_cons] at ht
          rcases ht with rfl | rfl | rfl | rfl | rfl | ht
          · exact serial_not_ws c (hre0.1 c hc)
          · exact serial_not_ws c (hre1.1 c hc)
          · exact serial_not_ws c (hre2.1 c hc)
          · exact serial_not_ws c (hre3.1 c hc)
          · exact serial_not_ws c (hre4.1 c hc)
          · exact absurd ht (List.not_mem_nil t)
      rw [cronJobParse_eval hsplit]
      rw [if_neg (by simp)]
      simp only [cronUnits, initParts, hre0.2.2, hre1.2.2, hre2.2.2, hre3.2.2,
        hre4.2.2]
      rw [if_neg hvne]

/-- Witness for C1 at the concrete expression `"1 2 3 4 5"` (minute 1,
hour 2, day 3, month 4, weekday 5): re-parsing its serialization
reproduces the same field value sets. -/
theorem c1_round_trip_witness :
    ∃ j2 : CronJob,
      cronJobParse defaultOptions (String.mk (cronJobStrChars
        ⟨defaultOptions,
          [⟨minuteUnit, defaultOptions, [1]⟩, ⟨hourUnit, defaultOptions, [2]⟩,
           ⟨dayUnit, defaultOptions, [3]⟩, ⟨monthUnit, defaultOptions, [4]⟩,
           ⟨weekdayUnit, defaultOptions, [5]⟩]⟩)) = .ok j2 ∧
      toFields j2 = toFields
        ⟨defaultOptions,
          [⟨minuteUnit, defaultOptions, [1]⟩, ⟨hourUnit, defaultOptions, [2]⟩,
           ⟨dayUnit, defaultOptions, [3]⟩, ⟨monthUnit, defaultOptions, [4]⟩,
           ⟨weekdayUnit, defaultOptions, [5]⟩]⟩ :=
  c1_round_trip "1 2 3 4 5"
    ⟨defaultOptions,
      [⟨minuteUnit, defaultOptions, [1]⟩, ⟨hourUnit, defaultOptions, [2]⟩,
       ⟨dayUnit, defaultOptions, [3]⟩, ⟨monthUnit, defaultOptions, [4]⟩,
       ⟨weekdayUnit, defaultOptions, [5]⟩]⟩ (by rfl)

end Sched
